import Mathlib

/-!
Shallow embedding of `gfs.py` (grandfather-father-son backup rotation scheme).

The Python module is embedded as follows:
* `datetime` objects become the `Datetime` structure (year/month/day/hour/
  minute/second as naturals), ordered lexicographically as in CPython.
* `format(date, fmt)` (strftime) and `datetime.strptime` are embedded for the
  `%`-directives the module uses (`%Y %m %d %H %M %S %W`), following CPython
  field regexes (`_strptime.TimeRE`) without regex backtracking, which is
  unreachable for the separator-delimited formats this program uses.
* The `SortedLimitedList` / `SortedLimitedSet` classes become functions over a
  `SLState` (the pair of parallel lists `self.keys` / `self.list` plus
  `self.max_size`).  Unguarded Python list indexing is modelled by `Option`:
  a `none` result stands for an `IndexError`.
* Exceptions raised by the module are the `PyErr` inductive.
-/

/-- Embeds CPython `datetime` (to second precision; the module never uses
microseconds or timezones). -/
structure Datetime where
  year : Nat
  month : Nat
  day : Nat
  hour : Nat
  minute : Nat
  second : Nat
deriving DecidableEq, Repr

/-- The field list of a `Datetime`, most significant first; CPython compares
`datetime`s lexicographically on exactly this tuple. -/
def Datetime.fields (d : Datetime) : List Nat :=
  [d.year, d.month, d.day, d.hour, d.minute, d.second]

theorem Datetime.fields_injective : Function.Injective Datetime.fields := by
  intro a b h
  cases a; cases b
  simp only [Datetime.fields, List.cons.injEq, and_true] at h
  obtain ⟨h1, h2, h3, h4, h5, h6⟩ := h
  subst h1 h2 h3 h4 h5 h6
  rfl

instance : LT Datetime := ⟨fun a b => List.Lex (· < ·) a.fields b.fields⟩

instance : LE Datetime := ⟨fun a b => a < b ∨ a = b⟩

instance Datetime.decLT : DecidableRel (α := Datetime) (· < ·) :=
  fun a b => inferInstanceAs (Decidable (List.Lex (· < ·) a.fields b.fields))

instance Datetime.decLE : DecidableRel (α := Datetime) (· ≤ ·) :=
  fun a b => inferInstanceAs (Decidable (a < b ∨ a = b))

theorem Datetime.lt_asymm {a b : Datetime} (h : a < b) : ¬ b < a :=
  asymm (r := List.Lex (· < ·)) h

theorem Datetime.lt_trans {a b c : Datetime} (h1 : a < b) (h2 : b < c) :
    a < c :=
  IsTrans.trans (r := List.Lex (· < ·)) a.fields b.fields c.fields h1 h2

theorem Datetime.lt_trichotomy (a b : Datetime) : a < b ∨ a = b ∨ b < a := by
  have inst : IsTrichotomous (List ℕ) (List.Lex (· < ·)) := inferInstance
  rcases inst.trichotomous a.fields b.fields with h | h | h
  · exact Or.inl h
  · exact Or.inr (Or.inl (Datetime.fields_injective h))
  · exact Or.inr (Or.inr h)

/-- CPython compares `datetime`s field by field, most significant first;
this linear order is built on `List.Lex` so that all comparisons reduce by
evaluation. -/
instance : LinearOrder Datetime where
  le a b := a ≤ b
  lt a b := a < b
  le_refl a := Or.inr rfl
  le_trans a b c hab hbc := by
    rcases hab with hab | rfl
    · rcases hbc with hbc | rfl
      · exact Or.inl (Datetime.lt_trans hab hbc)
      · exact Or.inl hab
    · exact hbc
  le_antisymm a b hab hba := by
    rcases hab with hab | rfl
    · rcases hba with hba | rfl
      · exact absurd hba (Datetime.lt_asymm hab)
      · rfl
    · rfl
  le_total a b := by
    rcases Datetime.lt_trichotomy a b with h | rfl | h
    · exact Or.inl (Or.inl h)
    · exact Or.inl (Or.inr rfl)
    · exact Or.inr (Or.inl h)
  lt_iff_le_not_le a b := by
    constructor
    · intro h
      refine ⟨Or.inl h, fun hc => ?_⟩
      rcases hc with hc | rfl
      · exact Datetime.lt_asymm h hc
      · exact Datetime.lt_asymm h h
    · intro ⟨hab, hnot⟩
      rcases hab with hab | rfl
      · exact hab
      · exact absurd (Or.inr rfl) hnot
  decidableLE := Datetime.decLE
  decidableLT := Datetime.decLT
  decidableEq := inferInstance

/-- A Python `str` as the module uses it for bucket keys: compared
lexicographically by code point, exactly `List.Lex` on the character list.
(A newtype around `List Char`, so that the order is structurally computable;
Mathlib's `String` order does not reduce in the kernel.) -/
structure PyStr where
  chars : List Char
deriving DecidableEq, Repr

instance : LT PyStr := ⟨fun a b => List.Lex (· < ·) a.chars b.chars⟩

instance : LE PyStr := ⟨fun a b => a < b ∨ a = b⟩

instance PyStr.decLT : DecidableRel (α := PyStr) (· < ·) :=
  fun a b => inferInstanceAs (Decidable (List.Lex (· < ·) a.chars b.chars))

instance PyStr.decLE : DecidableRel (α := PyStr) (· ≤ ·) :=
  fun a b => inferInstanceAs (Decidable (a < b ∨ a = b))

theorem PyStr.chars_injective : Function.Injective PyStr.chars := by
  intro a b h
  cases a; cases b
  simpa using h

theorem PyStr.str_lt_asymm {a b : PyStr} (h : a < b) : ¬ b < a :=
  asymm (r := List.Lex (· < ·)) h

theorem PyStr.str_lt_trans {a b c : PyStr} (h1 : a < b) (h2 : b < c) : a < c :=
  IsTrans.trans (r := List.Lex (· < ·)) a.chars b.chars c.chars h1 h2

theorem PyStr.str_lt_trichotomy (a b : PyStr) : a < b ∨ a = b ∨ b < a := by
  have inst : IsTrichotomous (List Char) (List.Lex (· < ·)) := inferInstance
  rcases inst.trichotomous a.chars b.chars with h | h | h
  · exact Or.inl h
  · exact Or.inr (Or.inl (PyStr.chars_injective h))
  · exact Or.inr (Or.inr h)

/-- Python string comparison (lexicographic by code point). -/
instance : LinearOrder PyStr where
  le a b := a ≤ b
  lt a b := a < b
  le_refl a := Or.inr rfl
  le_trans a b c hab hbc := by
    rcases hab with hab | rfl
    · rcases hbc with hbc | rfl
      · exact Or.inl (PyStr.str_lt_trans hab hbc)
      · exact Or.inl hab
    · exact hbc
  le_antisymm a b hab hba := by
    rcases hab with hab | rfl
    · rcases hba with hba | rfl
      · exact absurd hba (PyStr.str_lt_asymm hab)
      · rfl
    · rfl
  le_total a b := by
    rcases PyStr.str_lt_trichotomy a b with h | rfl | h
    · exact Or.inl (Or.inl h)
    · exact Or.inl (Or.inr rfl)
    · exact Or.inr (Or.inl h)
  lt_iff_le_not_le a b := by
    constructor
    · intro h
      refine ⟨Or.inl h, fun hc => ?_⟩
      rcases hc with hc | rfl
      · exact PyStr.str_lt_asymm h hc
      · exact PyStr.str_lt_asymm h h
    · intro ⟨hab, hnot⟩
      rcases hab with hab | rfl
      · exact hab
      · exact absurd (Or.inr rfl) hnot
  decidableLE := PyStr.decLE
  decidableLT := PyStr.decLT
  decidableEq := inferInstance

/-! ## Calendar arithmetic (for `%W` formatting and weekday computation) -/

/-- Gregorian leap-year test (as in CPython `calendar.isleap`). -/
def isLeap (y : Nat) : Bool :=
  y % 4 = 0 && (y % 100 ≠ 0 || y % 400 = 0)

/-- Days in a Gregorian month (CPython `calendar.monthrange`). -/
def daysInMonth (y m : Nat) : Nat :=
  match m with
  | 1 => 31
  | 2 => if isLeap y then 29 else 28
  | 3 => 31
  | 4 => 30
  | 5 => 31
  | 6 => 30
  | 7 => 31
  | 8 => 31
  | 9 => 30
  | 10 => 31
  | 11 => 30
  | 12 => 31
  | _ => 0

/-- Days in the year strictly before month `m`. -/
def daysBeforeMonth (y m : Nat) : Nat :=
  (match m with
   | 1 => 0
   | 2 => 31
   | 3 => 59
   | 4 => 90
   | 5 => 120
   | 6 => 151
   | 7 => 181
   | 8 => 212
   | 9 => 243
   | 10 => 273
   | 11 => 304
   | 12 => 334
   | _ => 365) + (if isLeap y ∧ 3 ≤ m then 1 else 0)

/-- One-based ordinal day of the year. -/
def dayOfYear (y m d : Nat) : Nat := daysBeforeMonth y m + d

/-- Day count since 0000-03-01 of the (proleptic) Gregorian calendar; the
standard days-from-civil algorithm specialised to years ≥ 1. -/
def daysFromCivil (y m d : Nat) : Nat :=
  let y' := if m ≤ 2 then y - 1 else y
  let era := y' / 400
  let yoe := y' % 400
  let mp := (m + 9) % 12
  let doy := (153 * mp + 2) / 5 + d - 1
  let doe := yoe * 365 + yoe / 4 - yoe / 100 + doy
  era * 146097 + doe

/-- Weekday with Monday = 0 … Sunday = 6 (the basis of `%W`); offset
calibrated so that 2017-01-01 (a Sunday) gives 6. -/
def weekdayMon0 (y m d : Nat) : Nat := (daysFromCivil y m d + 2) % 7

/-- CPython/glibc `%W`: week of the year, Monday as first day, days before
the first Monday being week 0. -/
def pyWeek (y m d : Nat) : Nat :=
  ((dayOfYear y m d - 1) + 7 - weekdayMon0 y m d) / 7

/-! ## strftime -/

/-- Fixed-width two-digit zero-padded decimal (values ≥ 100, which the
program never formats, fall back to the plain numeral). -/
def pad2 (n : Nat) : List Char :=
  if n < 100 then [Nat.digitChar (n / 10), Nat.digitChar (n % 10)]
  else Nat.toDigits 10 n

/-- Fixed-width four-digit zero-padded decimal (CPython zero-pads `%Y`;
years of the program are always four digits anyway). -/
def pad4 (n : Nat) : List Char :=
  if n < 10000 then
    [Nat.digitChar (n / 1000), Nat.digitChar (n / 100 % 10),
     Nat.digitChar (n / 10 % 10), Nat.digitChar (n % 10)]
  else Nat.toDigits 10 n

/-- One strftime directive, for the directives `gfs.py` uses. -/
def strftimeDir (c : Char) (d : Datetime) : List Char :=
  if c = 'Y' then pad4 d.year
  else if c = 'm' then pad2 d.month
  else if c = 'd' then pad2 d.day
  else if c = 'H' then pad2 d.hour
  else if c = 'M' then pad2 d.minute
  else if c = 'S' then pad2 d.second
  else if c = 'W' then pad2 (pyWeek d.year d.month d.day)
  else if c = '%' then ['%']
  else ['%', c]

/-- strftime over the character list of the format. -/
def strftimeChars : List Char → Datetime → List Char
  | [], _ => []
  | '%' :: c :: r, d => strftimeDir c d ++ strftimeChars r d
  | c :: r, d => c :: strftimeChars r d

/-- Embeds `format(date, fmt)` / `datetime.strftime`. -/
def strftime (fmt : String) (d : Datetime) : String :=
  String.mk (strftimeChars fmt.data d)

/-! ## strptime -/

/-- Partial fields accumulated while scanning, with CPython strptime
defaults (year 1900, January 1st, midnight). -/
structure PFields where
  y : Nat := 1900
  m : Nat := 1
  d : Nat := 1
  hh : Nat := 0
  mm : Nat := 0
  ss : Nat := 0
deriving Repr

def isDigit (c : Char) : Bool := '0' ≤ c && c ≤ '9'

def digitVal (c : Char) : Nat := c.toNat - 48

/-- Directive `%Y` matches exactly four digits (CPython `TimeRE` pattern `\d\d\d\d`). -/
def matchYear : List Char → Option (Nat × List Char)
  | a :: b :: c :: d :: rest =>
    if isDigit a && isDigit b && isDigit c && isDigit d then
      some (((digitVal a * 10 + digitVal b) * 10 + digitVal c) * 10 + digitVal d, rest)
    else none
  | _ => none

/-- Directive `%m` matches `1[0-2]|0[1-9]|[1-9]` (CPython `TimeRE`). -/
def matchMonth : List Char → Option (Nat × List Char)
  | c1 :: c2 :: rest =>
    if c1 = '1' && '0' ≤ c2 && c2 ≤ '2' then some (10 + digitVal c2, rest)
    else if c1 = '0' && '1' ≤ c2 && c2 ≤ '9' then some (digitVal c2, rest)
    else if '1' ≤ c1 && c1 ≤ '9' then some (digitVal c1, c2 :: rest)
    else none
  | [c1] => if '1' ≤ c1 && c1 ≤ '9' then some (digitVal c1, []) else none
  | [] => none

/-- Directive `%d` matches `3[01]|[12]\d|0[1-9]|[1-9]`. -/
def matchDay : List Char → Option (Nat × List Char)
  | c1 :: c2 :: rest =>
    if c1 = '3' && '0' ≤ c2 && c2 ≤ '1' then some (30 + digitVal c2, rest)
    else if ('1' ≤ c1 && c1 ≤ '2') && isDigit c2 then
      some (digitVal c1 * 10 + digitVal c2, rest)
    else if c1 = '0' && '1' ≤ c2 && c2 ≤ '9' then some (digitVal c2, rest)
    else if '1' ≤ c1 && c1 ≤ '9' then some (digitVal c1, c2 :: rest)
    else none
  | [c1] => if '1' ≤ c1 && c1 ≤ '9' then some (digitVal c1, []) else none
  | [] => none

/-- Directive `%H` matches `2[0-3]|[0-1]\d|\d`. -/
def matchHour : List Char → Option (Nat × List Char)
  | c1 :: c2 :: rest =>
    if c1 = '2' && '0' ≤ c2 && c2 ≤ '3' then some (20 + digitVal c2, rest)
    else if ('0' ≤ c1 && c1 ≤ '1') && isDigit c2 then
      some (digitVal c1 * 10 + digitVal c2, rest)
    else if isDigit c1 then some (digitVal c1, c2 :: rest)
    else none
  | [c1] => if isDigit c1 then some (digitVal c1, []) else none
  | [] => none

/-- Directive `%M` and `%S` match `[0-5]\d|\d`. -/
def matchMinSec : List Char → Option (Nat × List Char)
  | c1 :: c2 :: rest =>
    if ('0' ≤ c1 && c1 ≤ '5') && isDigit c2 then
      some (digitVal c1 * 10 + digitVal c2, rest)
    else if isDigit c1 then some (digitVal c1, c2 :: rest)
    else none
  | [c1] => if isDigit c1 then some (digitVal c1, []) else none
  | [] => none

/-- Scan the format against the input, accumulating fields; `none` is a
non-match.  Recursion is over the format characters. -/
def strptimeScan : List Char → List Char → PFields → Option (PFields × List Char)
  | [], input, f => some (f, input)
  | '%' :: c :: fr, input, f =>
    if c = 'Y' then
      match matchYear input with
      | some (n, rest) => strptimeScan fr rest { f with y := n }
      | none => none
    else if c = 'm' then
      match matchMonth input with
      | some (n, rest) => strptimeScan fr rest { f with m := n }
      | none => none
    else if c = 'd' then
      match matchDay input with
      | some (n, rest) => strptimeScan fr rest { f with d := n }
      | none => none
    else if c = 'H' then
      match matchHour input with
      | some (n, rest) => strptimeScan fr rest { f with hh := n }
      | none => none
    else if c = 'M' then
      match matchMinSec input with
      | some (n, rest) => strptimeScan fr rest { f with mm := n }
      | none => none
    else if c = 'S' then
      match matchMinSec input with
      | some (n, rest) => strptimeScan fr rest { f with ss := n }
      | none => none
    else if c = '%' then
      match input with
      | i :: ir => if i = '%' then strptimeScan fr ir f else none
      | [] => none
    else none
  | c :: fr, input, f =>
    match input with
    | i :: ir => if i = c then strptimeScan fr ir f else none
    | [] => none

/-- The `datetime(...)` constructor checks performed after a successful scan
(CPython validates the year range and the day against the month length; the
field regexes already bound month, hour, minute, second). -/
def validateFields (f : PFields) : Except String Datetime :=
  if f.y < 1 then
    .error ("year " ++ toString f.y ++ " is out of range")
  else if f.d > daysInMonth f.y f.m then
    .error "day is out of range for month"
  else
    .ok ⟨f.y, f.m, f.d, f.hh, f.mm, f.ss⟩

/-- Embeds `datetime.strptime(str_date, fmt)`; the error strings follow
CPython's wording (with its quotation marks omitted). -/
def strptime (fmt : String) (s : String) : Except String Datetime :=
  match strptimeScan fmt.data s.data {} with
  | none =>
    .error ("time data " ++ s ++ " does not match format " ++ fmt)
  | some (f, rest) =>
    if rest.isEmpty then validateFields f
    else .error ("unconverted data remains: " ++ String.mk rest)

/-! ## `SortedLimitedList` / `SortedLimitedSet` -/

/-- The mutable state of a `SortedLimitedList` / `SortedLimitedSet`: the
parallel lists `self.keys` and `self.list` plus `self.max_size`.  The key
closure `self.key` (fixed at construction) is passed to the operations as a
parameter.  `max_size` is a natural: the program only ever constructs these
containers with validated positive capacities. -/
structure SLState (K V : Type) where
  max_size : Nat
  keys : List K
  list : List V
deriving DecidableEq, Repr

/-- Embeds `bisect.bisect(keys, key)` (i.e. `bisect_right`): on a sorted list, the
index of the first element greater than `key`.  This linear recursion agrees
with the library binary search on the sorted lists the program maintains. -/
def bisect {K : Type} [LinearOrder K] (l : List K) (k : K) : Nat :=
  match l with
  | [] => 0
  | a :: t => if k < a then 0 else bisect t k + 1

/-- Python `list.insert(idx, x)` for a non-negative index (indices beyond the
end append, as in Python). -/
def pyInsertAt {α : Type} : List α → Nat → α → List α
  | l, 0, x => x :: l
  | [], _ + 1, x => [x]
  | b :: t, n + 1, x => b :: pyInsertAt t n x

variable {K V : Type} [LinearOrder K] [LinearOrder V]

/-- Embeds `SortedLimitedList.insert(value, _key=key, _index=idx)` as invoked by
`SortedLimitedSet.insert` (the `_key or …` / `_index or …` defaulting
re-evaluates to the same key and the same bisect index, so the passed values
are used directly).  `none` models an `IndexError` from `del self.list[0]`;
`del self.keys[0]` is guarded by the length test on the freshly extended
`keys`. -/
def SortedLimitedList.insert (s : SLState K V) (value : V) (key : K)
    (idx : Nat) : Option (SLState K V) :=
  if idx ≠ 0 ∨ s.keys.length < s.max_size then
    let ks := pyInsertAt s.keys idx key
    let vs := pyInsertAt s.list idx value
    if ks.length > s.max_size then
      match ks, vs with
      | _ :: kt, _ :: vt => some ⟨s.max_size, kt, vt⟩
      | _, _ => none
    else some ⟨s.max_size, ks, vs⟩
  else some s

/-- Embeds `SortedLimitedSet.insert(value)`.  `self.keys[idx - 1]` is reachable only
under the guard `idx > 0` and `idx ≤ len(keys)` always holds, so that access
is total; the parallel access `self.list[idx - 1]` is modelled by `Option`. -/
def SortedLimitedSet.insert (keyf : V → K) (s : SLState K V) (value : V) :
    Option (SLState K V) :=
  let key := keyf value
  let idx := bisect s.keys key
  let ex_key := if idx > 0 then s.keys.get? (idx - 1) else none
  match ex_key with
  | some ek =>
    if ek = key then
      match s.list.get? (idx - 1) with
      | some ev =>
        if ev ≤ value then some ⟨s.max_size, s.keys, s.list.set (idx - 1) value⟩
        else some s
      | none => none
    else SortedLimitedList.insert s value key idx
  | none => SortedLimitedList.insert s value key idx

/-- Feeding a sequence of values into a `SortedLimitedSet`, one `insert` at a
time (the constructor's initial-iterable loop and the GFS cycle coroutine
both do exactly this). -/
def runInserts (keyf : V → K) (s : SLState K V) : List V → Option (SLState K V)
  | [] => some s
  | v :: vs =>
    match SortedLimitedSet.insert keyf s v with
    | some s' => runInserts keyf s' vs
    | none => none

/-- Embeds `SortedLimitedSet(max_size, iterable, key=keyf)`: fold the iterable into
the empty state. -/
def SortedLimitedSet.ofList (keyf : V → K) (ms : Nat) (vs : List V) :
    Option (SLState K V) :=
  runInserts keyf ⟨ms, [], []⟩ vs

/-- The `SortedLimitedSet` states reachable by a sequence of `insert`s from
an empty set (the constructor builds its initial contents the same way). -/
inductive SLSReachable (keyf : V → K) : SLState K V → Prop where
  | empty (ms : Nat) : SLSReachable keyf ⟨ms, [], []⟩
  | step {S S' : SLState K V} (v : V) : SLSReachable keyf S →
      SortedLimitedSet.insert keyf S v = some S' → SLSReachable keyf S'

/-! ## Cycles and the retention engine -/

namespace Gfs

/-- A rotation cycle definition (`Cycle`): a name plus a datetime format
string used as the bucket key.  (Namespaced because Mathlib already has a
`Cycle`.) -/
structure Cycle where
  name : String
  key_fmt : String
deriving DecidableEq, Repr

/-- Embeds `Cycle.key`: `format(date, self.key_fmt)`. -/
def Cycle.key (c : Cycle) (d : Datetime) : PyStr :=
  ⟨(strftime c.key_fmt d).data⟩

def DAILY : Cycle := ⟨"daily", "%Y-%m-%d"⟩
def WEEKLY : Cycle := ⟨"weekly", "%Y-%W"⟩
def MONTHLY : Cycle := ⟨"monthly", "%Y-%m"⟩
def YEARLY : Cycle := ⟨"yearly", "%Y"⟩

/-- The exceptions the module raises. -/
inductive PyErr : Type
  | valueError (msg : String)
  | notImplementedError (msg : String)
  | runtimeError (msg : String)
  | attributeError
  | indexError
deriving DecidableEq, Repr

/-- One policy cycle of `_GFS._gfs`: a fresh `SortedLimitedSet` with the
cycle's capacity and key function, fed every candidate date (`_gfs_cycle`
coroutine), read out as its kept list. -/
def gfsCycleRun (c : Cycle) (cap : Nat) (dates : List Datetime) :
    Option (List Datetime) :=
  (SortedLimitedSet.ofList c.key cap dates).map SLState.list

/-- Embeds `_GFS._gfs(dates)`: one `SortedLimitedSet` per policy cycle, all fed the
same candidate stream, read out per cycle in policy order.  (The source
interleaves the sends across cycles; the cycle states are independent, so
per-cycle folding is the same computation.)  Capacities are the validated
positive policy values. -/
def gfsRunDT (policies : List (Cycle × Int)) (dates : List Datetime) :
    Option (List (Cycle × List Datetime)) :=
  match policies with
  | [] => some []
  | p :: ps =>
    match gfsCycleRun p.1 p.2.toNat dates, gfsRunDT ps dates with
    | some l, some rs => some ((p.1, l) :: rs)
    | _, _ => none

/-- Embeds `_GFS.gfs_filter(dates)`: the set union of the per-cycle selections. -/
def gfsFilterDT (policies : List (Cycle × Int)) (dates : List Datetime) :
    Option (Finset Datetime) :=
  (gfsRunDT policies dates).map
    (fun rs => rs.foldl (fun acc p => acc ∪ p.2.toFinset) ∅)

/-- Embeds `GFS._parse_date(str_date)`: `strptime` wrapped so the offending input
is always named in the error. -/
def parseDate (fmt : String) (s : String) : Except PyErr Datetime :=
  match strptime fmt s with
  | .ok d => .ok d
  | .error e => .error (.valueError ("Invalid date " ++ s ++ ": " ++ e ++ "."))

/-- Embeds `GFS._str_to_date`: parse every input (the source generator is consumed
in full before any output is produced, and the first failure aborts the
whole operation, so eager left-to-right parsing is observationally the
same). -/
def parseDates (fmt : String) : List String → Except PyErr (List Datetime)
  | [] => .ok []
  | s :: ss =>
    match parseDate fmt s with
    | .ok d =>
      match parseDates fmt ss with
      | .ok ds => .ok (d :: ds)
      | .error e => .error e
    | .error e => .error e

/-- Embeds `GFS._gfs(dates)` (string level): parse, run the engine, format back. -/
def gfsStr (fmt : String) (policies : List (Cycle × Int))
    (strs : List String) : Except PyErr (List (Cycle × List String)) :=
  match parseDates fmt strs with
  | .error e => .error e
  | .ok dates =>
    match gfsRunDT policies dates with
    | none => .error .indexError
    | some rs => .ok (rs.map (fun p => (p.1, p.2.map (strftime fmt))))

/-- Embeds `GFS.gfs_filter` on string dates: the union of the per-cycle formatted
selections, as a set. -/
def gfsFilterStr (fmt : String) (policies : List (Cycle × Int))
    (strs : List String) : Except PyErr (Finset String) :=
  match gfsStr fmt policies strs with
  | .error e => .error e
  | .ok rs => .ok (rs.foldl (fun acc p => acc ∪ p.2.toFinset) ∅)

/-! ## Policy construction -/

/-- Embeds `GFS.KEYWORD_CYCLES`, in source order. -/
def KEYWORD_CYCLES : List (String × Cycle) :=
  [("daily", DAILY), ("day", DAILY),
   ("weekly", WEEKLY), ("week", WEEKLY),
   ("monthly", MONTHLY), ("month", MONTHLY),
   ("yearly", YEARLY), ("year", YEARLY)]

/-- Python `dict` assignment `d[k] = v` on an association list that keeps
insertion order: overwrite in place if present, else append. -/
def dictInsert {α β : Type} [DecidableEq α] :
    List (α × β) → α → β → List (α × β)
  | [], k, v => [(k, v)]
  | p :: t, k, v => if p.1 = k then (k, v) :: t else p :: dictInsert t k v

/-- Python `str.lower()`, character by character (the keywords involved are
ASCII, on which this agrees with CPython; defined char-wise so that it
evaluates in the kernel). -/
def pyToLower (s : String) : String := ⟨s.data.map Char.toLower⟩

/-- Embeds `GFS.parse_keyword_cycles(**kwargs)`: lower-case each keyword, map it
through `KEYWORD_CYCLES`, and build the cycle dict; the first unknown
keyword raises `NotImplementedError`. -/
def parseKeywordCycles : List (String × Int) → List (Cycle × Int) →
    Except PyErr (List (Cycle × Int))
  | [], cycles => .ok cycles
  | (kw, value) :: rest, cycles =>
    match (KEYWORD_CYCLES.find? (fun p => p.1 = pyToLower kw)).map Prod.snd with
    | some c => parseKeywordCycles rest (dictInsert cycles c value)
    | none => .error (.notImplementedError ("Policy not available: " ++ kw ++ "."))

/-- The validation loop of `_GFS.__init__`: reject the first non-positive
capacity, build `self.policies`, and reject an empty result. -/
def gfsInitLoop : List (Cycle × Int) → List (Cycle × Int) →
    Except PyErr (List (Cycle × Int))
  | [], policies =>
    if policies.isEmpty then .error (.runtimeError "GFS with no policy cycles")
    else .ok policies
  | (cycle, value) :: rest, policies =>
    if value < 1 then
      .error (.valueError ("Policies only accept a positive value of cycles, "
        ++ toString value ++ " given for " ++ cycle.name))
    else gfsInitLoop rest (dictInsert policies cycle value)

/-- Embeds `_GFS.__init__(cycles)`. -/
def gfsInit (cycles : List (Cycle × Int)) : Except PyErr (List (Cycle × Int)) :=
  gfsInitLoop cycles []

/-- Embeds `GFS.__init__(date_format, cycles, **kwargs)`: with no explicit mapping,
non-empty keyword arguments are parsed first; with neither, `_GFS.__init__`
dereferences `None.items()` (an `AttributeError`). -/
def gfsConstruct (cycles : Option (List (Cycle × Int)))
    (kwargs : List (String × Int)) : Except PyErr (List (Cycle × Int)) :=
  match cycles, kwargs with
  | some cs, _ => gfsInit cs
  | none, [] => .error .attributeError
  | none, kw :: kws =>
    match parseKeywordCycles (kw :: kws) [] with
    | .ok cs => gfsInit cs
    | .error e => .error e

end Gfs

/-! ## Auxiliary definitions for the claims -/

/-- Equality of `Except` values is decidable componentwise (needed to decide
concrete pipeline results). -/
instance exceptDecEq {e a : Type} [DecidableEq e] [DecidableEq a] :
    DecidableEq (Except e a)
  | .error x, .error y =>
    if h : x = y then isTrue (by rw [h])
    else isFalse (by intro hc; cases hc; exact h rfl)
  | .ok x, .ok y =>
    if h : x = y then isTrue (by rw [h])
    else isFalse (by intro hc; cases hc; exact h rfl)
  | .error _, .ok _ => isFalse (by intro hc; cases hc)
  | .ok _, .error _ => isFalse (by intro hc; cases hc)

/-- Whether an `Except` is an error. -/
def isError {e a : Type} : Except e a → Bool
  | .error _ => true
  | .ok _ => false

/-- The first input string of a batch that fails to parse, if any. -/
def firstBadDate (fmt : String) (strs : List String) : Option String :=
  strs.find? (fun s => isError (strptime fmt s))

/-- Inverse of `daysFromCivil`: the standard civil-from-days algorithm,
returning (year, month, day). -/
def civilFromDays (z : Nat) : Nat × Nat × Nat :=
  let era := z / 146097
  let doe := z % 146097
  let yoe := (doe - doe / 1460 + doe / 36524 - doe / 146096) / 365
  let y := yoe + era * 400
  let doy := doe - (365 * yoe + yoe / 4 - yoe / 100)
  let mp := (5 * doy + 2) / 153
  let d := doy - (153 * mp + 2) / 5 + 1
  let m := if mp < 10 then mp + 3 else mp - 9
  (if m ≤ 2 then y + 1 else y, m, d)

/-- Modelled from the spec: "weekly (ISO-week-of-year)" / "year + ISO-ish
week number".  The ISO-8601 week-numbering year and week of a date: the week
is Monday-based, week 1 is the week containing the year's first Thursday,
and the ISO year is the calendar year of that Thursday.  This is not in the
source (`gfs.py` formats `%Y-%W`); it is defined here only to state what the
spec asserts the weekly bucket key to be. -/
def isoYearWeek (dt : Datetime) : Nat × Nat :=
  let z := daysFromCivil dt.year dt.month dt.day
  let wd := (z + 2) % 7
  let thu := z + 3 - wd
  let c := civilFromDays thu
  (c.1, (dayOfYear c.1 c.2.1 c.2.2 - 1) / 7 + 1)

/-- The date format of the specification's worked example and doctests. -/
def docFmt : String := "%Y-%m-%dT%H:%M:%S"

/-- The ten input timestamps of the specification's worked example. -/
def docDates : List String :=
  ["2017-05-21T22:00:00", "2017-05-21T21:00:00", "2017-05-20T20:00:00",
   "2017-05-14T19:00:00", "2017-05-13T18:00:00", "2017-05-07T17:00:00",
   "2017-04-30T16:00:00", "2017-04-23T15:00:00", "2016-12-25T14:00:00",
   "2015-12-30T13:00:00"]

/-- The policy of the specification's worked example, in the doctest's
insertion order. -/
def docPolicy : List (Gfs.Cycle × Int) :=
  [(Gfs.YEARLY, 2), (Gfs.MONTHLY, 2), (Gfs.WEEKLY, 2), (Gfs.DAILY, 2)]

/-- The expected retained set of the specification's worked example. -/
def docExpected : List String :=
  ["2016-12-25T14:00:00", "2017-04-30T16:00:00", "2017-05-14T19:00:00",
   "2017-05-20T20:00:00", "2017-05-21T22:00:00"]

/-! ## List-level lemmas about `pyInsertAt` and `bisect` -/

theorem pyInsertAt_length {α : Type} : ∀ (l : List α) (i : Nat) (x : α),
    (pyInsertAt l i x).length = l.length + 1
  | _, 0, _ => by simp [pyInsertAt]
  | [], _ + 1, _ => by simp [pyInsertAt]
  | b :: t, n + 1, x => by
    simp only [pyInsertAt, List.length_cons, pyInsertAt_length t n x]

theorem mem_pyInsertAt {α : Type} : ∀ (l : List α) (i : Nat) (x y : α),
    (y ∈ pyInsertAt l i x ↔ y = x ∨ y ∈ l)
  | l, 0, x, y => by simp [pyInsertAt]
  | [], n + 1, x, y => by simp [pyInsertAt]
  | b :: t, n + 1, x, y => by
    simp only [pyInsertAt, List.mem_cons, mem_pyInsertAt t n x y]
    tauto

theorem pyInsertAt_get?_lt {α : Type} : ∀ (l : List α) (i : Nat) (x : α) (j : Nat),
    j < i → i ≤ l.length → (pyInsertAt l i x).get? j = l.get? j
  | _, 0, _, j => by omega
  | [], n + 1, x, j => by intro _ h; simp at h
  | b :: t, n + 1, x, 0 => by intro _ _; simp [pyInsertAt]
  | b :: t, n + 1, x, j + 1 => by
    intro h hl
    simpa [pyInsertAt] using
      pyInsertAt_get?_lt t n x j (by omega) (by simpa using hl)

theorem pyInsertAt_get?_self {α : Type} : ∀ (l : List α) (i : Nat) (x : α),
    i ≤ l.length → (pyInsertAt l i x).get? i = some x
  | _, 0, _ => by intro _; simp [pyInsertAt]
  | [], n + 1, x => by intro h; simp at h
  | b :: t, n + 1, x => by
    intro h
    simpa [pyInsertAt] using pyInsertAt_get?_self t n x (by simpa using h)

theorem pyInsertAt_get?_ge {α : Type} : ∀ (l : List α) (i : Nat) (x : α) (j : Nat),
    i ≤ j → (pyInsertAt l i x).get? (j + 1) = l.get? j
  | _, 0, _, j => by intro _; simp [pyInsertAt]
  | [], n + 1, x, 0 => by intro h; omega
  | [], n + 1, x, j + 1 => by intro _; simp [pyInsertAt]
  | b :: t, n + 1, x, 0 => by intro h; omega
  | b :: t, n + 1, x, j + 1 => by
    intro h
    simpa [pyInsertAt] using pyInsertAt_get?_ge t n x j (by omega)

theorem pyInsertAt_pairwise {α : Type} {r : α → α → Prop} :
    ∀ (l : List α) (i : Nat) (x : α), l.Pairwise r →
      (∀ y ∈ l.take i, r y x) → (∀ y ∈ l.drop i, r x y) →
      (pyInsertAt l i x).Pairwise r
  | l, 0, x => by
    intro hp htake hdrop
    simp only [pyInsertAt, List.pairwise_cons]
    exact ⟨by simpa using hdrop, hp⟩
  | [], n + 1, x => by
    intro _ _ _
    simp [pyInsertAt]
  | b :: t, n + 1, x => by
    intro hp htake hdrop
    rw [List.pairwise_cons] at hp
    simp only [pyInsertAt, List.pairwise_cons]
    constructor
    · intro y hy
      rcases (mem_pyInsertAt t n x y).1 hy with rfl | hy
      · exact htake b (by simp)
      · exact hp.1 y hy
    · exact pyInsertAt_pairwise t n x hp.2
        (fun y hy => htake y (by simpa using Or.inr hy))
        (fun y hy => hdrop y (by simpa using hy))

/-- Cancelling the `del keys[0]` against an insertion at a positive index. -/
theorem pyInsertAt_tail {α : Type} : ∀ (l : List α) (i : Nat) (x : α),
    l ≠ [] → (pyInsertAt l (i + 1) x).tail = pyInsertAt l.tail i x
  | [], _, _ => by intro h; exact absurd rfl h
  | b :: t, i, x => by intro _; rfl

section BisectLemmas

variable {K : Type} [LinearOrder K]

theorem bisect_le_length : ∀ (l : List K) (k : K), bisect l k ≤ l.length
  | [], _ => Nat.le_refl 0
  | a :: t, k => by
    simp only [bisect]
    split
    · omega
    · have := bisect_le_length t k
      simp only [List.length_cons]
      omega

theorem bisect_take_not_lt : ∀ (l : List K) (k : K),
    ∀ y ∈ l.take (bisect l k), ¬ k < y
  | [], _ => by simp
  | a :: t, k => by
    simp only [bisect]
    split
    · simp
    · intro y hy
      rw [List.take_succ_cons] at hy
      rcases List.mem_cons.1 hy with rfl | hy
      · assumption
      · exact bisect_take_not_lt t k y hy

theorem bisect_drop_lt : ∀ (l : List K) (k : K), l.Pairwise (· < ·) →
    ∀ y ∈ l.drop (bisect l k), k < y
  | [], _ => by simp
  | a :: t, k => by
    intro hp
    rw [List.pairwise_cons] at hp
    simp only [bisect]
    split
    · intro y hy
      rw [List.drop_zero] at hy
      rcases List.mem_cons.1 hy with rfl | hy
      · assumption
      · exact lt_trans (by assumption) (hp.1 y hy)
    · intro y hy
      rw [List.drop_succ_cons] at hy
      exact bisect_drop_lt t k hp.2 y hy

theorem bisect_get?_pred : ∀ (l : List K) (k : K), 0 < bisect l k →
    ∃ a, l.get? (bisect l k - 1) = some a ∧ ¬ k < a
  | [], k => by simp [bisect]
  | a :: t, k => by
    simp only [bisect]
    split
    · omega
    · intro _
      rcases Nat.eq_zero_or_pos (bisect t k) with h0 | h0
      · exact ⟨a, by simp [h0], by assumption⟩
      · obtain ⟨b, hb, hbk⟩ := bisect_get?_pred t k h0
        refine ⟨b, ?_, hbk⟩
        have : bisect t k + 1 - 1 = (bisect t k - 1) + 1 := by omega
        rw [this, List.get?_cons_succ]
        exact hb

theorem bisect_mem_iff {l : List K} {k : K} (hs : l.Pairwise (· < ·)) :
    k ∈ l ↔ 0 < bisect l k ∧ l.get? (bisect l k - 1) = some k := by
  induction l with
  | nil => simp [bisect]
  | cons a t ih =>
    rw [List.pairwise_cons] at hs
    simp only [bisect]
    split
    · rename_i hka
      refine iff_of_false ?_ (by simp)
      intro hc
      rcases List.mem_cons.1 hc with rfl | hc
      · exact lt_irrefl k hka
      · exact lt_irrefl k (lt_trans hka (hs.1 k hc))
    · rename_i hka
      rcases Nat.eq_zero_or_pos (bisect t k) with h0 | h0
      · have hnt : k ∉ t := by
          intro hc
          have := ((ih hs.2).1 hc).1
          omega
        rw [h0]
        have hget0 : (a :: t).get? (0 + 1 - 1) = some a := rfl
        constructor
        · intro hc
          rcases List.mem_cons.1 hc with rfl | hc
          · exact ⟨Nat.one_pos, hget0⟩
          · exact absurd hc hnt
        · intro ⟨_, hget⟩
          rw [hget0] at hget
          cases hget
          exact List.mem_cons_self _ _
      · have hka2 : k ≠ a := by
          intro hEq
          obtain ⟨b, hb, hbk⟩ := bisect_get?_pred t k h0
          have hbt : b ∈ t := List.get?_mem hb
          exact hbk (show k < b by rw [hEq]; exact hs.1 b hbt)
        have : bisect t k + 1 - 1 = (bisect t k - 1) + 1 := by omega
        rw [this, List.get?_cons_succ]
        constructor
        · intro hc
          rcases List.mem_cons.1 hc with rfl | hc
          · exact absurd rfl hka2
          · exact ⟨by omega, ((ih hs.2).1 hc).2⟩
        · intro ⟨_, hget⟩
          exact List.mem_cons_of_mem a ((ih hs.2).2 ⟨h0, hget⟩)

end BisectLemmas

theorem get?_mem_zip {α β : Type} : ∀ (l1 : List α) (l2 : List β) (i : Nat)
    (a : α) (b : β), l1.get? i = some a → l2.get? i = some b →
    (a, b) ∈ l1.zip l2
  | [], _, i, _, _ => by simp
  | _ :: _, [], i, _, _ => by simp
  | x :: t1, y :: t2, 0, a, b => by
    intro h1 h2
    simp only [List.get?_cons_zero, Option.some.injEq] at h1 h2
    subst h1; subst h2
    simp [List.zip_cons_cons]
  | x :: t1, y :: t2, i + 1, a, b => by
    intro h1 h2
    rw [List.get?_cons_succ] at h1 h2
    exact List.mem_cons_of_mem _ (get?_mem_zip t1 t2 i a b h1 h2)

/-! ## The `SortedLimitedSet` invariant -/

/-- Characterisation of a `SortedLimitedSet` state after the values `seen`
have been inserted (in order) into an empty set of capacity `ms` with key
function `keyf`:
* the two parallel lists stay aligned;
* the keys are strictly ascending;
* exactly `min ms (number of distinct keys seen)` entries are kept;
* every kept key has been seen, when below capacity every seen key is kept,
  and every seen-but-not-kept key is smaller than every kept key (so the
  kept keys are the largest distinct seen keys);
* the value at each position carries that position's key and is the largest
  value inserted under that key. -/
structure SLSInv (keyf : V → K) (ms : Nat) (seen : List V)
    (S : SLState K V) : Prop where
  msize : S.max_size = ms
  align : S.list.length = S.keys.length
  sorted : S.keys.Pairwise (· < ·)
  size_eq : S.keys.length = min ms (seen.map keyf).toFinset.card
  keys_seen : ∀ k ∈ S.keys, k ∈ seen.map keyf
  all_kept : S.keys.length < ms → ∀ k ∈ seen.map keyf, k ∈ S.keys
  dropped_lt : ∀ k ∈ seen.map keyf, k ∉ S.keys → ∀ k2 ∈ S.keys, k < k2
  entries : ∀ i ki vi, S.keys.get? i = some ki → S.list.get? i = some vi →
    keyf vi = ki ∧ vi ∈ seen ∧ ∀ w ∈ seen, keyf w = ki → w ≤ vi

theorem sorted_get?_ne {l : List K} (hs : l.Pairwise (· < ·)) {i j : Nat}
    {ki kj : K} (hi : l.get? i = some ki) (hj : l.get? j = some kj)
    (hij : i ≠ j) : ki ≠ kj := by
  rw [List.get?_eq_some] at hi hj
  obtain ⟨hi', rfl⟩ := hi
  obtain ⟨hj', rfl⟩ := hj
  rw [List.pairwise_iff_get] at hs
  rcases Nat.lt_or_ge i j with h | h
  · exact ne_of_lt (hs ⟨i, hi'⟩ ⟨j, hj'⟩ h)
  · exact (ne_of_lt (hs ⟨j, hj'⟩ ⟨i, hi'⟩ (show j < i by omega))).symm

theorem sorted_get?_le {l : List K} (hs : l.Pairwise (· < ·)) {i j : Nat}
    {ki kj : K} (hi : l.get? i = some ki) (hj : l.get? j = some kj)
    (hij : i ≤ j) : ki ≤ kj := by
  rcases Nat.eq_or_lt_of_le hij with rfl | h
  · rw [hi] at hj
    exact le_of_eq (Option.some.inj hj)
  · rw [List.get?_eq_some] at hi hj
    obtain ⟨hi', rfl⟩ := hi
    obtain ⟨hj', rfl⟩ := hj
    rw [List.pairwise_iff_get] at hs
    exact le_of_lt (hs ⟨i, hi'⟩ ⟨j, hj'⟩ h)

theorem seenKeys_append (keyf : V → K) (seen : List V) (v : V) :
    ((seen ++ [v]).map keyf).toFinset
      = insert (keyf v) (seen.map keyf).toFinset := by
  simp only [List.map_append, List.map_cons, List.map_nil, List.toFinset_append,
    List.toFinset_cons, List.toFinset_nil, insert_emptyc_eq]
  rw [Finset.union_comm]
  simp [Finset.insert_eq]

theorem mem_seen_append_iff (keyf : V → K) (seen : List V) (v : V) (k : K) :
    k ∈ (seen ++ [v]).map keyf ↔ k ∈ seen.map keyf ∨ k = keyf v := by
  simp [List.map_append]

theorem inv_step_collision_replace {keyf : V → K} {ms : Nat} {seen : List V}
    {S : SLState K V} (hinv : SLSInv keyf ms seen S) (v : V)
    (hpos : 0 < bisect S.keys (keyf v))
    (hcol : S.keys.get? (bisect S.keys (keyf v) - 1) = some (keyf v))
    {ev : V} (hev : S.list.get? (bisect S.keys (keyf v) - 1) = some ev)
    (hle : ev ≤ v) :
    SLSInv keyf ms (seen ++ [v])
      ⟨S.max_size, S.keys, S.list.set (bisect S.keys (keyf v) - 1) v⟩ := by
  obtain ⟨msize, align, sorted, size_eq, keys_seen, all_kept, dropped_lt,
    entries⟩ := hinv
  have hkmem : keyf v ∈ S.keys := (bisect_mem_iff sorted).2 ⟨hpos, hcol⟩
  have hkseen : keyf v ∈ seen.map keyf := keys_seen _ hkmem
  have hsame : ((seen ++ [v]).map keyf).toFinset
      = (seen.map keyf).toFinset := by
    rw [seenKeys_append]
    exact Finset.insert_eq_self.2 (List.mem_toFinset.2 hkseen)
  refine ⟨msize, ?_, sorted, ?_, ?_, ?_, ?_, ?_⟩
  · simpa using align
  · rw [hsame]; exact size_eq
  · intro k hk
    exact (mem_seen_append_iff keyf seen v k).2 (Or.inl (keys_seen k hk))
  · intro hlt k hk
    rcases (mem_seen_append_iff keyf seen v k).1 hk with hk | rfl
    · exact all_kept hlt k hk
    · exact hkmem
  · intro k hk hnk
    rcases (mem_seen_append_iff keyf seen v k).1 hk with hk | rfl
    · exact dropped_lt k hk hnk
    · exact absurd hkmem hnk
  · intro i ki vi hki hvi
    by_cases hidx : i = bisect S.keys (keyf v) - 1
    · rw [← hidx] at hcol hev hvi
      have hkieq : ki = keyf v := by
        rw [hki] at hcol
        exact Option.some.inj hcol
      have hlen : i < S.list.length := by
        rw [align]
        have h1 := bisect_le_length S.keys (keyf v)
        have h2 : i < S.keys.length := (List.get?_eq_some.1 hki).1
        exact h2
      rw [List.get?_set_eq_of_lt _ hlen] at hvi
      have hvieq : vi = v := (Option.some.inj hvi).symm
      obtain ⟨hk1, hk2, hk3⟩ := entries i ki ev hki hev
      subst hvieq
      refine ⟨by rw [hkieq], List.mem_append_right _ (by simp), ?_⟩
      intro w hw hwk
      rcases List.mem_append.1 hw with hw | hw
      · exact le_trans (hk3 w hw hwk) hle
      · simp only [List.mem_singleton] at hw
        subst hw
        exact le_refl w
    · rw [List.get?_set_ne _ _ (fun h => hidx h.symm)] at hvi
      obtain ⟨hk1, hk2, hk3⟩ := entries i ki vi hki hvi
      have hkine : ki ≠ keyf v := sorted_get?_ne sorted hki hcol hidx
      refine ⟨hk1, List.mem_append_left _ hk2, ?_⟩
      intro w hw hwk
      rcases List.mem_append.1 hw with hw | hw
      · exact hk3 w hw hwk
      · simp only [List.mem_singleton] at hw
        subst hw
        exact absurd hwk.symm hkine

theorem inv_step_collision_keep {keyf : V → K} {ms : Nat} {seen : List V}
    {S : SLState K V} (hinv : SLSInv keyf ms seen S) (v : V)
    (hpos : 0 < bisect S.keys (keyf v))
    (hcol : S.keys.get? (bisect S.keys (keyf v) - 1) = some (keyf v))
    {ev : V} (hev : S.list.get? (bisect S.keys (keyf v) - 1) = some ev)
    (hgt : ¬ ev ≤ v) :
    SLSInv keyf ms (seen ++ [v]) S := by
  obtain ⟨msize, align, sorted, size_eq, keys_seen, all_kept, dropped_lt,
    entries⟩ := hinv
  have hkmem : keyf v ∈ S.keys := (bisect_mem_iff sorted).2 ⟨hpos, hcol⟩
  have hkseen : keyf v ∈ seen.map keyf := keys_seen _ hkmem
  have hsame : ((seen ++ [v]).map keyf).toFinset
      = (seen.map keyf).toFinset := by
    rw [seenKeys_append]
    exact Finset.insert_eq_self.2 (List.mem_toFinset.2 hkseen)
  refine ⟨msize, align, sorted, ?_, ?_, ?_, ?_, ?_⟩
  · rw [hsame]; exact size_eq
  · intro k hk
    exact (mem_seen_append_iff keyf seen v k).2 (Or.inl (keys_seen k hk))
  · intro hlt k hk
    rcases (mem_seen_append_iff keyf seen v k).1 hk with hk | rfl
    · exact all_kept hlt k hk
    · exact hkmem
  · intro k hk hnk
    rcases (mem_seen_append_iff keyf seen v k).1 hk with hk | rfl
    · exact dropped_lt k hk hnk
    · exact absurd hkmem hnk
  · intro i ki vi hki hvi
    obtain ⟨hk1, hk2, hk3⟩ := entries i ki vi hki hvi
    refine ⟨hk1, List.mem_append_left _ hk2, ?_⟩
    intro w hw hwk
    rcases List.mem_append.1 hw with hw | hw
    · exact hk3 w hw hwk
    · simp only [List.mem_singleton] at hw
      by_cases hidx : i = bisect S.keys (keyf v) - 1
      · rw [← hidx] at hcol hev
        have hvieq : vi = ev := by
          rw [hvi] at hev
          exact Option.some.inj hev
        rw [hw, hvieq]
        exact le_of_lt (lt_of_not_le hgt)
      · have hkine : ki ≠ keyf v := sorted_get?_ne sorted hki hcol hidx
        rw [hw] at hwk
        exact absurd hwk.symm hkine

theorem inv_step_reject {keyf : V → K} {ms : Nat} {seen : List V}
    {S : SLState K V} (hinv : SLSInv keyf ms seen S) (v : V)
    (hidx : bisect S.keys (keyf v) = 0)
    (hfull : ¬ S.keys.length < ms) :
    SLSInv keyf ms (seen ++ [v]) S := by
  obtain ⟨msize, align, sorted, size_eq, keys_seen, all_kept, dropped_lt,
    entries⟩ := hinv
  have hlenms : S.keys.length = ms := by
    have := Nat.min_le_left ms (seen.map keyf).toFinset.card
    omega
  have hcard : ms ≤ (seen.map keyf).toFinset.card := by
    have := Nat.min_le_right ms (seen.map keyf).toFinset.card
    rcases Nat.le_total ms (seen.map keyf).toFinset.card with h | h
    · exact h
    · have : min ms (seen.map keyf).toFinset.card
          = (seen.map keyf).toFinset.card := Nat.min_eq_right h
      omega
  have hall : ∀ k2 ∈ S.keys, keyf v < k2 := by
    intro k2 hk2
    have := bisect_drop_lt S.keys (keyf v) sorted
    rw [hidx, List.drop_zero] at this
    exact this k2 hk2
  refine ⟨msize, align, sorted, ?_, ?_, ?_, ?_, ?_⟩
  · rw [seenKeys_append, hlenms]
    have hle : ms ≤ (insert (keyf v) (seen.map keyf).toFinset).card :=
      le_trans hcard (Finset.card_le_card (Finset.subset_insert _ _))
    omega
  · intro k hk
    exact (mem_seen_append_iff keyf seen v k).2 (Or.inl (keys_seen k hk))
  · intro hlt
    rw [hlenms] at hlt
    omega
  · intro k hk hnk
    rcases (mem_seen_append_iff keyf seen v k).1 hk with hk | rfl
    · exact dropped_lt k hk hnk
    · exact hall
  · intro i ki vi hki hvi
    obtain ⟨hk1, hk2, hk3⟩ := entries i ki vi hki hvi
    refine ⟨hk1, List.mem_append_left _ hk2, ?_⟩
    intro w hw hwk
    rcases List.mem_append.1 hw with hw | hw
    · exact hk3 w hw hwk
    · simp only [List.mem_singleton] at hw
      subst hw
      have hkimem : ki ∈ S.keys := List.get?_mem hki
      exact absurd hwk (ne_of_lt (hall ki hkimem))

theorem inv_step_insert {keyf : V → K} {ms : Nat} {seen : List V}
    {S : SLState K V} (hinv : SLSInv keyf ms seen S) (v : V)
    (hnot : keyf v ∉ S.keys)
    (hins : bisect S.keys (keyf v) ≠ 0 ∨ S.keys.length < ms) :
    ∃ S', SortedLimitedList.insert S v (keyf v) (bisect S.keys (keyf v))
        = some S' ∧ SLSInv keyf ms (seen ++ [v]) S' := by
  obtain ⟨msz, ks0, ls0⟩ := S
  obtain ⟨msize, align, sorted, size_eq, keys_seen, all_kept, dropped_lt,
    entries⟩ := hinv
  dsimp only at msize align sorted size_eq keys_seen all_kept dropped_lt entries hnot hins ⊢
  replace msize := msize.symm
  subst msize
  have h_idx_le : bisect ks0 (keyf v) ≤ ks0.length := bisect_le_length _ _
  have h_new : keyf v ∉ seen.map keyf := by
    intro hc
    rcases hins with hpos | hlt
    · obtain ⟨a, ha, hak⟩ := bisect_get?_pred ks0 (keyf v) (by omega)
      have hamem : a ∈ ks0 := List.get?_mem ha
      exact hak (dropped_lt _ hc hnot a hamem)
    · exact hnot (all_kept hlt _ hc)
  have h_card : ((seen ++ [v]).map keyf).toFinset.card
      = (seen.map keyf).toFinset.card + 1 := by
    rw [seenKeys_append]
    exact Finset.card_insert_of_not_mem (fun hc => h_new (List.mem_toFinset.1 hc))
  have h_take : ∀ y ∈ ks0.take (bisect ks0 (keyf v)), y < keyf v := by
    intro y hy
    have h1 : ¬ keyf v < y := bisect_take_not_lt ks0 (keyf v) y hy
    have h2 : y ∈ ks0 := List.take_subset _ _ hy
    exact lt_of_le_of_ne (le_of_not_lt h1) (fun hc => hnot (hc ▸ h2))
  have h_drop : ∀ y ∈ ks0.drop (bisect ks0 (keyf v)), keyf v < y :=
    bisect_drop_lt ks0 (keyf v) sorted
  by_cases hcap : ks0.length + 1 > ms
  · -- at capacity: the lowest entry is evicted
    have hlenms : ks0.length = ms := by
      have : ks0.length ≤ ms := by
        have := Nat.min_le_left ms (seen.map keyf).toFinset.card
        omega
      omega
    have hidxpos : bisect ks0 (keyf v) ≠ 0 := by
      rcases hins with h | h
      · exact h
      · omega
    obtain ⟨j, hj⟩ : ∃ j, bisect ks0 (keyf v) = j + 1 :=
      ⟨bisect ks0 (keyf v) - 1, by omega⟩
    have hkpos : 0 < ks0.length := by omega
    have hkne : ks0 ≠ [] := by
      intro h
      rw [h] at hkpos
      simp at hkpos
    have hlpos : 0 < ls0.length := by omega
    have hlne : ls0 ≠ [] := by
      intro h
      rw [h] at hlpos
      simp at hlpos
    obtain ⟨k0, krest, hkeq⟩ := List.exists_cons_of_ne_nil hkne
    obtain ⟨v0, vrest, hveq⟩ := List.exists_cons_of_ne_nil hlne
    subst hkeq
    subst hveq
    obtain ⟨a, ha, hak⟩ := bisect_get?_pred (k0 :: krest) (keyf v) (by omega)
    have hamem : a ∈ k0 :: krest := List.get?_mem ha
    have halt : a < keyf v :=
      lt_of_le_of_ne (le_of_not_lt hak) (fun hc => hnot (hc ▸ hamem))
    have hk0a : k0 ≤ a := by
      refine sorted_get?_le sorted (i := 0) (j := bisect (k0 :: krest) (keyf v) - 1)
        rfl ha (by omega)
    have hk0lt : k0 < keyf v := lt_of_le_of_lt hk0a halt
    rw [List.pairwise_cons] at sorted
    obtain ⟨hk0all, sorted_krest⟩ := sorted
    have hjlen : j ≤ krest.length := by
      simp only [List.length_cons] at h_idx_le
      omega
    have hjlen2 : j ≤ vrest.length := by
      simp only [List.length_cons] at align
      omega
    have h_take2 : ∀ y ∈ krest.take j, y < keyf v := by
      intro y hy
      refine h_take y ?_
      rw [hj, List.take_succ_cons]
      exact List.mem_cons_of_mem _ hy
    have h_drop2 : ∀ y ∈ krest.drop j, keyf v < y := by
      intro y hy
      refine h_drop y ?_
      rw [hj, List.drop_succ_cons]
      exact hy
    refine ⟨⟨ms, pyInsertAt krest j (keyf v), pyInsertAt vrest j v⟩, ?_, ?_⟩
    · simp only [SortedLimitedList.insert, hj, pyInsertAt]
      rw [if_pos (by omega)]
      have hlen1 : (k0 :: pyInsertAt krest j (keyf v)).length > ms := by
        simp only [List.length_cons, pyInsertAt_length]
        simp only [List.length_cons] at hlenms
        omega
      rw [if_pos hlen1]
    · have hcard_ge : ms ≤ (seen.map keyf).toFinset.card := by
        rcases Nat.le_total ms (seen.map keyf).toFinset.card with h | h
        · exact h
        · rw [Nat.min_eq_right h] at size_eq
          omega
      refine ⟨rfl, ?_, ?_, ?_, ?_, ?_, ?_, ?_⟩
      · simp only [pyInsertAt_length]
        simp only [List.length_cons] at align
        omega
      · exact pyInsertAt_pairwise krest j (keyf v) sorted_krest h_take2 h_drop2
      · simp only [pyInsertAt_length, h_card]
        rw [Nat.min_eq_left (by omega)]
        simp only [List.length_cons] at hlenms
        omega
      · intro y hy
        rcases (mem_pyInsertAt krest j (keyf v) y).1 hy with hy2 | hy2
        · exact (mem_seen_append_iff keyf seen v y).2 (Or.inr hy2)
        · exact (mem_seen_append_iff keyf seen v y).2
            (Or.inl (keys_seen y (List.mem_cons_of_mem _ hy2)))
      · intro hlt
        simp only [pyInsertAt_length] at hlt
        simp only [List.length_cons] at hlenms
        omega
      · intro k2 hk2 hnk2 k3 hk3
        rcases (mem_pyInsertAt krest j (keyf v) k3).1 hk3 with hk3a | hk3a
        · -- k3 is the new key
          rw [hk3a]
          rcases (mem_seen_append_iff keyf seen v k2).1 hk2 with hk2a | hk2a
          · by_cases hk2mem : k2 ∈ k0 :: krest
            · rcases List.mem_cons.1 hk2mem with rfl | hk2mem
              · exact hk0lt
              · exact absurd ((mem_pyInsertAt krest j (keyf v) k2).2
                  (Or.inr hk2mem)) hnk2
            · exact lt_trans (dropped_lt k2 hk2a hk2mem k0 (List.mem_cons_self _ _))
                hk0lt
          · exact absurd ((mem_pyInsertAt krest j (keyf v) k2).2 (Or.inl hk2a)) hnk2
        · -- k3 is an old key from the tail
          rcases (mem_seen_append_iff keyf seen v k2).1 hk2 with hk2a | hk2a
          · by_cases hk2mem : k2 ∈ k0 :: krest
            · rcases List.mem_cons.1 hk2mem with rfl | hk2mem
              · exact hk0all k3 hk3a
              · exact absurd ((mem_pyInsertAt krest j (keyf v) k2).2
                  (Or.inr hk2mem)) hnk2
            · exact dropped_lt k2 hk2a hk2mem k3 (List.mem_cons_of_mem _ hk3a)
          · exact absurd ((mem_pyInsertAt krest j (keyf v) k2).2 (Or.inl hk2a)) hnk2
      · intro i ki vi hki hvi
        rcases lt_trichotomy i j with hij | hij | hij
        · rw [pyInsertAt_get?_lt krest j (keyf v) i hij hjlen] at hki
          rw [pyInsertAt_get?_lt vrest j v i hij hjlen2] at hvi
          obtain ⟨he1, he2, he3⟩ := entries (i + 1) ki vi hki hvi
          refine ⟨he1, List.mem_append_left _ he2, ?_⟩
          intro w hw hwk
          rcases List.mem_append.1 hw with hw | hw
          · exact he3 w hw hwk
          · simp only [List.mem_singleton] at hw
            rw [hw] at hwk
            have hkimem : ki ∈ k0 :: krest :=
              List.mem_cons_of_mem _ (List.get?_mem hki)
            exact absurd hwk.symm (fun hc => hnot (hc ▸ hkimem))
        · rw [hij] at hki hvi
          rw [pyInsertAt_get?_self krest j (keyf v) hjlen] at hki
          rw [pyInsertAt_get?_self vrest j v hjlen2] at hvi
          have hki2 : ki = keyf v := (Option.some.inj hki).symm
          have hvi2 : vi = v := (Option.some.inj hvi).symm
          subst hki2
          subst hvi2
          refine ⟨rfl, List.mem_append_right _ (by simp), ?_⟩
          intro w hw hwk
          rcases List.mem_append.1 hw with hw | hw
          · exact absurd (hwk ▸ List.mem_map_of_mem keyf hw) h_new
          · simp only [List.mem_singleton] at hw
            rw [hw]
        · obtain ⟨i', rfl⟩ : ∃ i', i = i' + 1 := ⟨i - 1, by omega⟩
          rw [pyInsertAt_get?_ge krest j (keyf v) i' (by omega)] at hki
          rw [pyInsertAt_get?_ge vrest j v i' (by omega)] at hvi
          obtain ⟨he1, he2, he3⟩ := entries (i' + 1) ki vi hki hvi
          refine ⟨he1, List.mem_append_left _ he2, ?_⟩
          intro w hw hwk
          rcases List.mem_append.1 hw with hw | hw
          · exact he3 w hw hwk
          · simp only [List.mem_singleton] at hw
            rw [hw] at hwk
            have hkimem : ki ∈ k0 :: krest :=
              List.mem_cons_of_mem _ (List.get?_mem hki)
            exact absurd hwk.symm (fun hc => hnot (hc ▸ hkimem))
  · -- below capacity: plain insertion, nothing evicted
    have hltms : ks0.length < ms := by omega
    have hc2 : (seen.map keyf).toFinset.card = ks0.length := by
      rcases Nat.le_total ms (seen.map keyf).toFinset.card with h | h
      · rw [Nat.min_eq_left h] at size_eq
        omega
      · rw [Nat.min_eq_right h] at size_eq
        omega
    have hlist_le : bisect ks0 (keyf v) ≤ ls0.length := by omega
    refine ⟨⟨ms, pyInsertAt ks0 (bisect ks0 (keyf v)) (keyf v),
      pyInsertAt ls0 (bisect ks0 (keyf v)) v⟩, ?_, ?_⟩
    · simp only [SortedLimitedList.insert]
      rw [if_pos (Or.inr hltms)]
      rw [if_neg (by simp only [pyInsertAt_length]; omega)]
    · refine ⟨rfl, ?_, ?_, ?_, ?_, ?_, ?_, ?_⟩
      · simp only [pyInsertAt_length]
        omega
      · exact pyInsertAt_pairwise ks0 _ (keyf v) sorted h_take h_drop
      · simp only [pyInsertAt_length, h_card, hc2]
        rw [Nat.min_eq_right (by omega)]
      · intro y hy
        rcases (mem_pyInsertAt ks0 _ (keyf v) y).1 hy with hy2 | hy2
        · exact (mem_seen_append_iff keyf seen v y).2 (Or.inr hy2)
        · exact (mem_seen_append_iff keyf seen v y).2 (Or.inl (keys_seen y hy2))
      · intro _ k2 hk2
        rcases (mem_seen_append_iff keyf seen v k2).1 hk2 with hk2a | hk2a
        · exact (mem_pyInsertAt ks0 _ (keyf v) k2).2
            (Or.inr (all_kept hltms k2 hk2a))
        · exact (mem_pyInsertAt ks0 _ (keyf v) k2).2 (Or.inl hk2a)
      · intro k2 hk2 hnk2
        rcases (mem_seen_append_iff keyf seen v k2).1 hk2 with hk2a | hk2a
        · exact absurd ((mem_pyInsertAt ks0 _ (keyf v) k2).2
            (Or.inr (all_kept hltms k2 hk2a))) hnk2
        · exact absurd ((mem_pyInsertAt ks0 _ (keyf v) k2).2 (Or.inl hk2a)) hnk2
      · intro i ki vi hki hvi
        rcases lt_trichotomy i (bisect ks0 (keyf v)) with hij | hij | hij
        · rw [pyInsertAt_get?_lt ks0 _ (keyf v) i hij h_idx_le] at hki
          rw [pyInsertAt_get?_lt ls0 _ v i hij hlist_le] at hvi
          obtain ⟨he1, he2, he3⟩ := entries i ki vi hki hvi
          refine ⟨he1, List.mem_append_left _ he2, ?_⟩
          intro w hw hwk
          rcases List.mem_append.1 hw with hw | hw
          · exact he3 w hw hwk
          · simp only [List.mem_singleton] at hw
            rw [hw] at hwk
            have hkimem : ki ∈ ks0 := List.get?_mem hki
            exact absurd hwk.symm (fun hc => hnot (hc ▸ hkimem))
        · rw [hij] at hki hvi
          rw [pyInsertAt_get?_self ks0 _ (keyf v) h_idx_le] at hki
          rw [pyInsertAt_get?_self ls0 _ v hlist_le] at hvi
          have hki2 : ki = keyf v := (Option.some.inj hki).symm
          have hvi2 : vi = v := (Option.some.inj hvi).symm
          subst hki2
          subst hvi2
          refine ⟨rfl, List.mem_append_right _ (by simp), ?_⟩
          intro w hw hwk
          rcases List.mem_append.1 hw with hw | hw
          · exact absurd (hwk ▸ List.mem_map_of_mem keyf hw) h_new
          · simp only [List.mem_singleton] at hw
            rw [hw]
        · obtain ⟨i', rfl⟩ : ∃ i', i = i' + 1 := ⟨i - 1, by omega⟩
          rw [pyInsertAt_get?_ge ks0 _ (keyf v) i' (by omega)] at hki
          rw [pyInsertAt_get?_ge ls0 _ v i' (by omega)] at hvi
          obtain ⟨he1, he2, he3⟩ := entries i' ki vi hki hvi
          refine ⟨he1, List.mem_append_left _ he2, ?_⟩
          intro w hw hwk
          rcases List.mem_append.1 hw with hw | hw
          · exact he3 w hw hwk
          · simp only [List.mem_singleton] at hw
            rw [hw] at hwk
            have hkimem : ki ∈ ks0 := List.get?_mem hki
            exact absurd hwk.symm (fun hc => hnot (hc ▸ hkimem))

/-- Reduction of `SortedLimitedSet.insert` when the bisect index is 0 (no
predecessor key to compare with). -/
theorem setInsert_eq_of_zero {keyf : V → K} {S : SLState K V} {v : V}
    (hz : bisect S.keys (keyf v) = 0) :
    SortedLimitedSet.insert keyf S v
      = SortedLimitedList.insert S v (keyf v) 0 := by
  simp only [SortedLimitedSet.insert, hz]
  rfl

/-- Reduction of `SortedLimitedSet.insert` when the bisect index is positive,
exposing the predecessor-key comparison. -/
theorem setInsert_eq_of_pos {keyf : V → K} {S : SLState K V} {v : V} {a : K}
    (hpos : 0 < bisect S.keys (keyf v))
    (ha : S.keys.get? (bisect S.keys (keyf v) - 1) = some a) :
    SortedLimitedSet.insert keyf S v
      = if a = keyf v then
          (match S.list.get? (bisect S.keys (keyf v) - 1) with
           | some ev =>
             if ev ≤ v then
               some ⟨S.max_size, S.keys,
                 S.list.set (bisect S.keys (keyf v) - 1) v⟩
             else some S
           | none => none)
        else SortedLimitedList.insert S v (keyf v)
          (bisect S.keys (keyf v)) := by
  simp only [SortedLimitedSet.insert]
  rw [if_pos hpos, ha]

/-- One step of the invariant: inserting any value into an invariant state
succeeds and preserves the invariant for the extended history. -/
theorem insert_inv {keyf : V → K} {ms : Nat} {seen : List V} {S : SLState K V}
    (hinv : SLSInv keyf ms seen S) (v : V) :
    ∃ S', SortedLimitedSet.insert keyf S v = some S'
      ∧ SLSInv keyf ms (seen ++ [v]) S' := by
  rcases Nat.eq_zero_or_pos (bisect S.keys (keyf v)) with hz | hpos
  · have hnot : keyf v ∉ S.keys := by
      intro hc
      have := ((bisect_mem_iff hinv.sorted).1 hc).1
      omega
    by_cases hlt : S.keys.length < ms
    · obtain ⟨S', hS', hinv'⟩ := inv_step_insert hinv v hnot (Or.inr hlt)
      rw [hz] at hS'
      exact ⟨S', by rw [setInsert_eq_of_zero hz]; exact hS', hinv'⟩
    · refine ⟨S, ?_, inv_step_reject hinv v hz hlt⟩
      rw [setInsert_eq_of_zero hz]
      simp only [SortedLimitedList.insert]
      rw [if_neg]
      rw [hinv.msize]
      simp [hlt]
  · obtain ⟨a, ha, hak⟩ := bisect_get?_pred S.keys (keyf v) hpos
    by_cases hcol : a = keyf v
    · subst hcol
      have hl : bisect S.keys (keyf v) - 1 < S.list.length := by
        have h1 := bisect_le_length S.keys (keyf v)
        have h2 := hinv.align
        omega
      have hev : S.list.get? (bisect S.keys (keyf v) - 1)
          = some (S.list.get ⟨bisect S.keys (keyf v) - 1, hl⟩) :=
        List.get?_eq_get hl
      by_cases hle : S.list.get ⟨bisect S.keys (keyf v) - 1, hl⟩ ≤ v
      · refine ⟨_, ?_, inv_step_collision_replace hinv v hpos ha hev hle⟩
        rw [setInsert_eq_of_pos hpos ha, if_pos rfl, hev]
        simp only [if_pos hle]
      · refine ⟨S, ?_, inv_step_collision_keep hinv v hpos ha hev hle⟩
        rw [setInsert_eq_of_pos hpos ha, if_pos rfl, hev]
        simp only [if_neg hle]
    · have hnot : keyf v ∉ S.keys := by
        intro hc
        have h2 := ((bisect_mem_iff hinv.sorted).1 hc).2
        rw [ha] at h2
        exact hcol (Option.some.inj h2)
      obtain ⟨S', hS', hinv'⟩ := inv_step_insert hinv v hnot (Or.inl (by omega))
      refine ⟨S', ?_, hinv'⟩
      rw [setInsert_eq_of_pos hpos ha, if_neg hcol]
      exact hS'

/-- The empty state satisfies the invariant for the empty history. -/
theorem inv_empty (keyf : V → K) (ms : Nat) :
    SLSInv keyf ms [] ⟨ms, [], []⟩ := by
  refine ⟨rfl, rfl, List.Pairwise.nil, by simp, by simp, by simp, by simp, ?_⟩
  intro i ki vi hki _
  simp at hki

/-- Folding a list of values into an invariant state succeeds and yields an
invariant state for the extended history. -/
theorem runInserts_inv {keyf : V → K} {ms : Nat} (vs : List V)
    {seen : List V} {S : SLState K V} (hinv : SLSInv keyf ms seen S) :
    ∃ S', runInserts keyf S vs = some S'
      ∧ SLSInv keyf ms (seen ++ vs) S' := by
  induction vs generalizing seen S with
  | nil => exact ⟨S, rfl, by simpa using hinv⟩
  | cons v vs ih =>
    obtain ⟨S1, hS1, hinv1⟩ := insert_inv hinv v
    obtain ⟨S2, hS2, hinv2⟩ := ih hinv1
    refine ⟨S2, ?_, by simpa using hinv2⟩
    simp only [runInserts, hS1]
    exact hS2

/-- The state reached from the empty set satisfies the invariant. -/
theorem ofList_inv (keyf : V → K) (ms : Nat) (vs : List V) :
    ∃ S, SortedLimitedSet.ofList keyf ms vs = some S
      ∧ SLSInv keyf ms vs S := by
  obtain ⟨S, hS, hinv⟩ := runInserts_inv vs (inv_empty keyf ms)
  exact ⟨S, hS, by simpa using hinv⟩

/-- If two invariant states have histories with the same members and the
keys of the first are kept, the keys of the first are kept in the second as
well (given equal key counts). -/
theorem inv_keys_subset {keyf : V → K} {ms : Nat} {seen1 seen2 : List V}
    {S1 S2 : SLState K V} (h1 : SLSInv keyf ms seen1 S1)
    (h2 : SLSInv keyf ms seen2 S2)
    (hmem : ∀ x, x ∈ seen1 ↔ x ∈ seen2)
    (hlen : S1.keys.length = S2.keys.length) :
    ∀ k ∈ S1.keys, k ∈ S2.keys := by
  have hkeysmem : ∀ k, k ∈ seen1.map keyf ↔ k ∈ seen2.map keyf := by
    intro k
    simp only [List.mem_map]
    constructor
    · rintro ⟨x, hx, rfl⟩
      exact ⟨x, (hmem x).1 hx, rfl⟩
    · rintro ⟨x, hx, rfl⟩
      exact ⟨x, (hmem x).2 hx, rfl⟩
  intro k hk1
  by_contra hk2
  have hkseen2 : k ∈ seen2.map keyf := (hkeysmem k).1 (h1.keys_seen k hk1)
  have hlt2 : ∀ k2 ∈ S2.keys, k < k2 := h2.dropped_lt k hkseen2 hk2
  have hsub21 : ∀ k', k' ∈ S2.keys → k' ∈ S1.keys := by
    intro k' hk'2
    by_contra hk'1
    have hkseen1 : k' ∈ seen1.map keyf :=
      (hkeysmem k').2 (h2.keys_seen k' hk'2)
    have hlt1 := h1.dropped_lt k' hkseen1 hk'1 k hk1
    exact absurd (hlt2 k' hk'2) (lt_asymm hlt1)
  have hnd1 : S1.keys.Nodup := h1.sorted.imp (fun h => ne_of_lt h)
  have hnd2 : S2.keys.Nodup := h2.sorted.imp (fun h => ne_of_lt h)
  have hsubF : S2.keys.toFinset ⊆ S1.keys.toFinset := fun x hx =>
    List.mem_toFinset.2 (hsub21 x (List.mem_toFinset.1 hx))
  have hcards : S1.keys.toFinset.card ≤ S2.keys.toFinset.card := by
    rw [List.toFinset_card_of_nodup hnd1, List.toFinset_card_of_nodup hnd2,
      hlen]
  have hFeq : S2.keys.toFinset = S1.keys.toFinset :=
    Finset.eq_of_subset_of_card_le hsubF hcards
  apply hk2
  apply List.mem_toFinset.1
  rw [hFeq]
  exact List.mem_toFinset.2 hk1

/-- Two invariant states whose histories contain the same values are equal:
the state after a batch of inserts depends only on which values were
inserted, not on their order or multiplicity. -/
theorem slsInv_unique {keyf : V → K} {ms : Nat} {seen1 seen2 : List V}
    {S1 S2 : SLState K V} (h1 : SLSInv keyf ms seen1 S1)
    (h2 : SLSInv keyf ms seen2 S2)
    (hmem : ∀ x, x ∈ seen1 ↔ x ∈ seen2) : S1 = S2 := by
  have hfs : (seen1.map keyf).toFinset = (seen2.map keyf).toFinset := by
    apply Finset.ext
    intro k
    simp only [List.mem_toFinset, List.mem_map]
    constructor
    · rintro ⟨x, hx, rfl⟩
      exact ⟨x, (hmem x).1 hx, rfl⟩
    · rintro ⟨x, hx, rfl⟩
      exact ⟨x, (hmem x).2 hx, rfl⟩
  have hlen : S1.keys.length = S2.keys.length := by
    rw [h1.size_eq, h2.size_eq, hfs]
  have hnd1 : S1.keys.Nodup := h1.sorted.imp (fun h => ne_of_lt h)
  have hnd2 : S2.keys.Nodup := h2.sorted.imp (fun h => ne_of_lt h)
  have hseteq : S1.keys.toFinset = S2.keys.toFinset := by
    apply Finset.ext
    intro k
    simp only [List.mem_toFinset]
    exact ⟨inv_keys_subset h1 h2 hmem hlen k,
      inv_keys_subset h2 h1 (fun x => (hmem x).symm) hlen.symm k⟩
  haveI : IsAntisymm K (· < ·) :=
    ⟨fun a b hab hba => absurd hba (lt_asymm hab)⟩
  have hkeys : S1.keys = S2.keys :=
    List.eq_of_perm_of_sorted
      (List.perm_of_nodup_nodup_toFinset_eq hnd1 hnd2 hseteq)
      h1.sorted h2.sorted
  have hlistlen : S1.list.length = S2.list.length := by
    rw [h1.align, h2.align, hkeys]
  have hlist : S1.list = S2.list := by
    apply List.ext
    intro i
    rcases Nat.lt_or_ge i S1.list.length with hi | hi
    · have hi2 : i < S2.list.length := by omega
      have hik : i < S1.keys.length := by
        have := h1.align
        omega
      obtain ⟨ki, hki⟩ : ∃ ki, S1.keys.get? i = some ki :=
        ⟨S1.keys.get ⟨i, hik⟩, List.get?_eq_get hik⟩
      have hki2 : S2.keys.get? i = some ki := by rw [← hkeys]; exact hki
      obtain ⟨v1, hv1⟩ : ∃ v1, S1.list.get? i = some v1 :=
        ⟨S1.list.get ⟨i, hi⟩, List.get?_eq_get hi⟩
      obtain ⟨v2, hv2⟩ : ∃ v2, S2.list.get? i = some v2 :=
        ⟨S2.list.get ⟨i, hi2⟩, List.get?_eq_get hi2⟩
      obtain ⟨he11, he12, he13⟩ := h1.entries i ki v1 hki hv1
      obtain ⟨he21, he22, he23⟩ := h2.entries i ki v2 hki2 hv2
      have hle1 : v1 ≤ v2 := he23 v1 ((hmem v1).1 he12) he11
      have hle2 : v2 ≤ v1 := he13 v2 ((hmem v2).2 he22) he21
      rw [hv1, hv2, le_antisymm hle1 hle2]
    · have hi2 : i ≥ S2.list.length := by omega
      rw [List.get?_eq_none.2 hi, List.get?_eq_none.2 hi2]
  have hms : S1.max_size = S2.max_size := by
    rw [h1.msize, h2.msize]
  cases S1
  cases S2
  simp only at hkeys hlist hms
  rw [hkeys, hlist, hms]

/-- The bad batch of the doctest in `GFS._gfs` (second string malformed). -/
def docBadDates : List String :=
  ["2017-05-31T12:00:00", "2017-06-01X13:00:00", "2017-06-02T10:00:00"]

/-- Membership in the kept keys is exactly: the key was seen and fewer than
`ms` distinct seen keys are larger. -/
theorem inv_mem_keys_iff {keyf : V → K} {ms : Nat} {seen : List V}
    {S : SLState K V} (hinv : SLSInv keyf ms seen S) (k : K) :
    k ∈ S.keys ↔ k ∈ seen.map keyf ∧
      ((seen.map keyf).toFinset.filter (fun k2 => k < k2)).card < ms := by
  constructor
  · intro hk
    refine ⟨hinv.keys_seen k hk, ?_⟩
    have hsub : (seen.map keyf).toFinset.filter (fun k2 => k < k2)
        ⊆ S.keys.toFinset.erase k := by
      intro x hx
      rw [Finset.mem_filter, List.mem_toFinset] at hx
      obtain ⟨hxseen, hxgt⟩ := hx
      have hxkeys : x ∈ S.keys := by
        by_contra hxnot
        exact absurd hxgt (lt_asymm (hinv.dropped_lt x hxseen hxnot k hk))
      rw [Finset.mem_erase, List.mem_toFinset]
      exact ⟨(ne_of_lt hxgt).symm, hxkeys⟩
    have hnd : S.keys.Nodup := hinv.sorted.imp (fun h => ne_of_lt h)
    have hcard := Finset.card_le_card hsub
    have hcard2 : (S.keys.toFinset.erase k).card
        = S.keys.toFinset.card - 1 :=
      Finset.card_erase_of_mem (List.mem_toFinset.2 hk)
    have hcard3 : S.keys.toFinset.card = S.keys.length :=
      List.toFinset_card_of_nodup hnd
    have hlen_pos : 0 < S.keys.length := List.length_pos_of_mem hk
    have hlen_le : S.keys.length ≤ ms := by
      have := Nat.min_le_left ms (seen.map keyf).toFinset.card
      have := hinv.size_eq
      omega
    omega
  · intro ⟨hseen, hrank⟩
    by_contra hnot
    have hall : ∀ k2 ∈ S.keys, k < k2 := hinv.dropped_lt k hseen hnot
    have hlenms : S.keys.length = ms := by
      rcases Nat.lt_or_ge S.keys.length ms with hlt | hge
      · exact absurd (hinv.all_kept hlt k hseen) hnot
      · have := Nat.min_le_left ms (seen.map keyf).toFinset.card
        have := hinv.size_eq
        omega
    have hsub : S.keys.toFinset
        ⊆ (seen.map keyf).toFinset.filter (fun k2 => k < k2) := by
      intro x hx
      rw [List.mem_toFinset] at hx
      rw [Finset.mem_filter, List.mem_toFinset]
      exact ⟨hinv.keys_seen x hx, hall x hx⟩
    have hnd : S.keys.Nodup := hinv.sorted.imp (fun h => ne_of_lt h)
    have hcard := Finset.card_le_card hsub
    have hcard3 : S.keys.toFinset.card = S.keys.length :=
      List.toFinset_card_of_nodup hnd
    omega

/-- C2 (claim theorem below instantiates this): full characterisation of the
state reached by feeding `vs` into an empty `SortedLimitedSet`. -/
theorem ofList_characterisation {keyf : V → K} (ms : Nat) (vs : List V) :
    ∃ S, SortedLimitedSet.ofList keyf ms vs = some S
      ∧ S.keys.length ≤ ms
      ∧ S.list.length = S.keys.length
      ∧ S.keys.Pairwise (· < ·)
      ∧ (∀ k, k ∈ S.keys ↔ k ∈ vs.map keyf ∧
          ((vs.map keyf).toFinset.filter (fun k2 => k < k2)).card < ms)
      ∧ (∀ i ki vi, S.keys.get? i = some ki → S.list.get? i = some vi →
          keyf vi = ki ∧ vi ∈ vs ∧ ∀ w ∈ vs, keyf w = ki → w ≤ vi) := by
  obtain ⟨S, hS, hinv⟩ := ofList_inv keyf ms vs
  refine ⟨S, hS, ?_, hinv.align, hinv.sorted, fun k => inv_mem_keys_iff hinv k,
    hinv.entries⟩
  have := Nat.min_le_left ms (vs.map keyf).toFinset.card
  have := hinv.size_eq
  omega

/-- A reachable state satisfies the invariant for some insertion history. -/
theorem reachable_inv {keyf : V → K} {S : SLState K V}
    (h : SLSReachable keyf S) :
    ∃ seen, SLSInv keyf S.max_size seen S := by
  induction h with
  | empty ms => exact ⟨[], inv_empty keyf ms⟩
  | step v _ heq ih =>
    obtain ⟨seen, hinv⟩ := ih
    obtain ⟨S2, hS2, hinv2⟩ := insert_inv hinv v
    rw [heq] at hS2
    rw [← Option.some.inj hS2] at hinv2
    refine ⟨seen ++ [v], ?_⟩
    rw [hinv2.msize]
    exact hinv2

/-! ## Claim theorems -/

/-- C2: for every capacity `K ≥ 1`, key function, and insertion sequence,
the resulting `SortedLimitedSet` has at most `K` entries, strictly ascending
keys, keeps exactly the values of the `K` largest distinct keys ever
inserted (a key is kept iff it was seen and fewer than `K` distinct seen
keys exceed it), and for each kept key retains the maximum value inserted
under that key. -/
theorem sortedLimitedSet_characterisation {K V : Type} [LinearOrder K]
    [LinearOrder V] (keyf : V → K) (ms : Nat) (hms : 1 ≤ ms) (vs : List V) :
    ∃ S, SortedLimitedSet.ofList keyf ms vs = some S
      ∧ S.keys.length ≤ ms
      ∧ S.list.length = S.keys.length
      ∧ S.keys.Pairwise (· < ·)
      ∧ (∀ k, k ∈ S.keys ↔ k ∈ vs.map keyf ∧
          ((vs.map keyf).toFinset.filter (fun k2 => k < k2)).card < ms)
      ∧ (∀ i ki vi, S.keys.get? i = some ki → S.list.get? i = some vi →
          keyf vi = ki ∧ vi ∈ vs ∧ ∀ w ∈ vs, keyf w = ki → w ≤ vi) :=
  ofList_characterisation ms vs

/-- C2 witness: capacity 1, identity key, inserting [0, 5] of ℕ. -/
theorem sortedLimitedSet_characterisation_witness :
    ∃ S, SortedLimitedSet.ofList (fun n : ℕ => n) 1 [0, 5] = some S
      ∧ S.keys.length ≤ 1
      ∧ S.list.length = S.keys.length
      ∧ S.keys.Pairwise (· < ·)
      ∧ (∀ k, k ∈ S.keys ↔ k ∈ ([0, 5] : List ℕ).map (fun n => n) ∧
          ((([0, 5] : List ℕ).map (fun n => n)).toFinset.filter
            (fun k2 => k < k2)).card < 1)
      ∧ (∀ i ki vi, S.keys.get? i = some ki → S.list.get? i = some vi →
          vi = ki ∧ vi ∈ ([0, 5] : List ℕ) ∧
            ∀ w ∈ ([0, 5] : List ℕ), w = ki → w ≤ vi) :=
  sortedLimitedSet_characterisation (fun n : ℕ => n) 1 (by decide) [0, 5]

/-- C9: `SortedLimitedSet.insert` is total on every reachable state — no
list or index access can fail (raise `IndexError`, modelled as `none`). -/
theorem sortedLimitedSet_insert_total {K V : Type} [LinearOrder K]
    [LinearOrder V] (keyf : V → K) {S : SLState K V}
    (h : SLSReachable keyf S) (v : V) :
    (SortedLimitedSet.insert keyf S v).isSome := by
  obtain ⟨seen, hinv⟩ := reachable_inv h
  obtain ⟨S', hS', _⟩ := insert_inv hinv v
  rw [hS']
  rfl

/-- C9 witness: inserting into an empty capacity-2 set of naturals. -/
theorem sortedLimitedSet_insert_total_witness :
    (SortedLimitedSet.insert (fun n : ℕ => n) ⟨2, [], []⟩ 5).isSome :=
  sortedLimitedSet_insert_total (fun n : ℕ => n) (SLSReachable.empty 2) 5

/-- C8: inserting the same value twice in a row, after any reachable
history, produces the same final state as inserting it once. -/
theorem sortedLimitedSet_insert_idempotent {K V : Type} [LinearOrder K]
    [LinearOrder V] (keyf : V → K) (ms : Nat) (vs : List V) (v : V) :
    runInserts keyf (⟨ms, [], []⟩ : SLState K V) (vs ++ [v])
      = runInserts keyf (⟨ms, [], []⟩ : SLState K V) (vs ++ [v, v]) := by
  obtain ⟨S1, hS1, hinv1⟩ := runInserts_inv (vs ++ [v]) (inv_empty keyf ms)
  obtain ⟨S2, hS2, hinv2⟩ := runInserts_inv (vs ++ [v, v]) (inv_empty keyf ms)
  rw [hS1, hS2]
  simp only [List.nil_append] at hinv1 hinv2
  have heq : S1 = S2 := by
    refine slsInv_unique hinv1 hinv2 ?_
    intro x
    simp only [List.mem_append, List.mem_singleton, List.mem_cons,
      List.mem_singleton]
    tauto
  rw [heq]

/-- A cycle run over an empty date stream keeps nothing. -/
theorem gfsCycleRun_nil (c : Gfs.Cycle) (cap : Nat) :
    Gfs.gfsCycleRun c cap [] = some [] := rfl

/-- C10: filtering an empty input raises no error; every per-cycle result is
empty and the union is the empty set. -/
theorem gfs_filter_empty_input (policies : List (Gfs.Cycle × Int)) :
    Gfs.gfsRunDT policies []
      = some (policies.map (fun p => (p.1, ([] : List Datetime))))
    ∧ Gfs.gfsFilterDT policies [] = some ∅ := by
  have h1 : ∀ ps : List (Gfs.Cycle × Int), Gfs.gfsRunDT ps []
      = some (ps.map (fun p => (p.1, ([] : List Datetime)))) := by
    intro ps
    induction ps with
    | nil => rfl
    | cons p ps ih =>
      simp only [Gfs.gfsRunDT, ih, gfsCycleRun_nil, List.map_cons]
  have h2 : ∀ (rs : List (Gfs.Cycle × Int)) (acc : Finset Datetime),
      ((rs.map (fun p => (p.1, ([] : List Datetime)))).foldl
        (fun acc p => acc ∪ p.2.toFinset) acc) = acc := by
    intro rs
    induction rs with
    | nil => intro acc; rfl
    | cons r rs ih =>
      intro acc
      simp only [List.map_cons, List.foldl_cons, List.toFinset_nil,
        Finset.union_empty]
      exact ih acc
  refine ⟨h1 policies, ?_⟩
  unfold Gfs.gfsFilterDT
  rw [h1 policies, Option.map_some']
  rw [h2 policies ∅]

set_option maxRecDepth 100000 in
/-- C1: the specification's worked example — a policy of two yearly, two
monthly, two weekly and two daily slots applied to the ten documented input
strings retains exactly the five documented timestamps. -/
theorem gfs_doc_example :
    Gfs.gfsFilterStr docFmt docPolicy docDates = .ok docExpected.toFinset := by
  decide

/-- The set state reached from a batch of values depends only on which
values occur in the batch, not on their order. -/
theorem ofList_perm {K V : Type} [LinearOrder K] [LinearOrder V]
    (keyf : V → K) (ms : Nat) {vs vs' : List V} (h : List.Perm vs vs') :
    SortedLimitedSet.ofList keyf ms vs = SortedLimitedSet.ofList keyf ms vs' := by
  obtain ⟨S1, hS1, hinv1⟩ := ofList_inv keyf ms vs
  obtain ⟨S2, hS2, hinv2⟩ := ofList_inv keyf ms vs'
  rw [hS1, hS2, slsInv_unique hinv1 hinv2 (fun x => h.mem_iff)]

/-- C3: permuting the input dates leaves every per-cycle selection and the
final retained set unchanged, and the value retained per bucket key is the
maximum value carrying that key regardless of arrival order. -/
theorem gfs_filter_perm_invariant (policies : List (Gfs.Cycle × Int))
    (dates dates' : List Datetime) (hperm : List.Perm dates dates') :
    Gfs.gfsRunDT policies dates = Gfs.gfsRunDT policies dates'
    ∧ Gfs.gfsFilterDT policies dates = Gfs.gfsFilterDT policies dates'
    ∧ (∀ (c : Gfs.Cycle) (cap : Int), (c, cap) ∈ policies →
        ∀ S, SortedLimitedSet.ofList c.key cap.toNat dates = some S →
        ∀ i ki vi, S.keys.get? i = some ki → S.list.get? i = some vi →
          c.key vi = ki ∧ vi ∈ dates ∧
            ∀ w ∈ dates, c.key w = ki → w ≤ vi) := by
  have hcyc : ∀ (c : Gfs.Cycle) (cap : Nat),
      Gfs.gfsCycleRun c cap dates = Gfs.gfsCycleRun c cap dates' := by
    intro c cap
    unfold Gfs.gfsCycleRun
    rw [ofList_perm c.key cap hperm]
  have hrun : ∀ ps : List (Gfs.Cycle × Int),
      Gfs.gfsRunDT ps dates = Gfs.gfsRunDT ps dates' := by
    intro ps
    induction ps with
    | nil => rfl
    | cons p ps ih => simp only [Gfs.gfsRunDT, hcyc, ih]
  refine ⟨hrun policies, ?_, ?_⟩
  · unfold Gfs.gfsFilterDT
    rw [hrun]
  · intro c cap _ S hS i ki vi hki hvi
    obtain ⟨S0, hS0, hinv⟩ := ofList_inv c.key cap.toNat dates
    rw [hS0] at hS
    cases Option.some.inj hS
    exact hinv.entries i ki vi hki hvi

/-- C3 witness: swapping two concrete dates does not change the engine
result for the documented policy. -/
theorem gfs_filter_perm_invariant_witness :
    Gfs.gfsRunDT docPolicy
        [⟨2017, 5, 21, 22, 0, 0⟩, ⟨2016, 12, 25, 14, 0, 0⟩]
      = Gfs.gfsRunDT docPolicy
        [⟨2016, 12, 25, 14, 0, 0⟩, ⟨2017, 5, 21, 22, 0, 0⟩] :=
  (gfs_filter_perm_invariant docPolicy _ _ (by decide)).1

/-- The first unparsable string of a batch determines the `parseDates`
error: the wrapped message names exactly that string and the underlying
reason. -/
theorem parseDates_firstBad (fmt : String) :
    ∀ (strs : List String) (s : String), firstBadDate fmt strs = some s →
      ∃ e, strptime fmt s = .error e ∧ s ∈ strs
        ∧ Gfs.parseDates fmt strs
            = .error (.valueError ("Invalid date " ++ s ++ ": " ++ e ++ "."))
  | [], s => by simp [firstBadDate]
  | t :: ts, s => by
    intro hbad
    unfold firstBadDate at hbad
    cases hpt : isError (strptime fmt t) with
    | true =>
      simp only [List.find?, hpt] at hbad
      have hst : s = t := (Option.some.inj hbad).symm
      subst hst
      match hstr : strptime fmt s with
      | .ok d =>
        rw [hstr] at hpt
        simp [isError] at hpt
      | .error e =>
        refine ⟨e, rfl, List.mem_cons_self _ _, ?_⟩
        simp only [Gfs.parseDates, Gfs.parseDate, hstr]
    | false =>
      simp only [List.find?, hpt] at hbad
      obtain ⟨e, he, hmem, hpd⟩ := parseDates_firstBad fmt ts s hbad
      match hstr : strptime fmt t with
      | .error e' =>
        rw [hstr] at hpt
        simp [isError] at hpt
      | .ok d =>
        refine ⟨e, he, List.mem_cons_of_mem _ hmem, ?_⟩
        simp only [Gfs.parseDates, Gfs.parseDate, hstr, hpd]

/-- C6: whenever a batch contains an unparsable string, the whole filtering
operation fails with a `ValueError` whose message contains (as substrings)
the first offending raw input string and the underlying parse failure
reason; no retained set is produced. -/
theorem gfs_filter_parse_error (fmt : String)
    (policies : List (Gfs.Cycle × Int)) (strs : List String) (s : String)
    (hbad : firstBadDate fmt strs = some s) :
    ∃ e, strptime fmt s = .error e ∧ s ∈ strs
      ∧ Gfs.gfsFilterStr fmt policies strs
          = .error (.valueError ("Invalid date " ++ s ++ ": " ++ e ++ "."))
      ∧ s.data <:+: ("Invalid date " ++ s ++ ": " ++ e ++ ".").data
      ∧ e.data <:+: ("Invalid date " ++ s ++ ": " ++ e ++ ".").data := by
  obtain ⟨e, he, hmem, hpd⟩ := parseDates_firstBad fmt strs s hbad
  refine ⟨e, he, hmem, ?_, ?_, ?_⟩
  · simp only [Gfs.gfsFilterStr, Gfs.gfsStr, hpd]
  · refine ⟨"Invalid date ".data, (": " ++ e ++ ".").data, ?_⟩
    simp [String.data_append]
  · refine ⟨("Invalid date " ++ s ++ ": ").data, ".".data, ?_⟩
    simp [String.data_append]

/-- C6 witness: the doctest's bad batch fails with an error naming
`2017-06-01X13:00:00`. -/
theorem gfs_filter_parse_error_witness :
    ∃ e, strptime docFmt "2017-06-01X13:00:00" = .error e
      ∧ "2017-06-01X13:00:00" ∈ docBadDates
      ∧ Gfs.gfsFilterStr docFmt docPolicy docBadDates
          = .error (.valueError
              ("Invalid date " ++ "2017-06-01X13:00:00" ++ ": " ++ e ++ "."))
      ∧ "2017-06-01X13:00:00".data
          <:+: ("Invalid date " ++ "2017-06-01X13:00:00" ++ ": " ++ e ++ ".").data
      ∧ e.data
          <:+: ("Invalid date " ++ "2017-06-01X13:00:00" ++ ": " ++ e ++ ".").data :=
  gfs_filter_parse_error docFmt docPolicy docBadDates "2017-06-01X13:00:00"
    (by decide)

/-- Successful parsing preserves the number of dates. -/
theorem parseDates_ok_length (fmt : String) :
    ∀ (strs : List String) (dates : List Datetime),
      Gfs.parseDates fmt strs = .ok dates → dates.length = strs.length
  | [], dates => by
    intro h
    simp only [Gfs.parseDates] at h
    cases h
    rfl
  | t :: ts, dates => by
    intro h
    simp only [Gfs.parseDates] at h
    match hpt : Gfs.parseDate fmt t with
    | .error e => rw [hpt] at h; cases h
    | .ok d =>
      rw [hpt] at h
      match hts : Gfs.parseDates fmt ts with
      | .error e => rw [hts] at h; cases h
      | .ok ds =>
        rw [hts] at h
        cases h
        simp only [List.length_cons, parseDates_ok_length fmt ts ds hts]

/-- Per-cycle bounds: a cycle run always succeeds, keeps at most the cycle's
capacity, and keeps something whenever the input is non-empty and the
capacity positive. -/
theorem gfsCycleRun_bounds (c : Gfs.Cycle) (cap : Nat)
    (dates : List Datetime) :
    ∃ l, Gfs.gfsCycleRun c cap dates = some l ∧ l.length ≤ cap
      ∧ (dates ≠ [] → 1 ≤ cap → l ≠ []) := by
  obtain ⟨S, hS, hinv⟩ := ofList_inv c.key cap dates
  refine ⟨S.list, ?_, ?_, ?_⟩
  · unfold Gfs.gfsCycleRun
    rw [hS]
    rfl
  · rw [hinv.align, hinv.size_eq]
    exact Nat.min_le_left _ _
  · intro hne hcap
    have hcard : 1 ≤ (dates.map c.key).toFinset.card := by
      match dates, hne with
      | d :: ds, _ =>
        refine Finset.card_pos.2 ⟨c.key d, ?_⟩
        simp
    have hlen : 1 ≤ S.list.length := by
      rw [hinv.align, hinv.size_eq]
      exact Nat.le_min.2 ⟨hcap, hcard⟩
    intro hnil
    rw [hnil] at hlen
    simp at hlen

/-- Engine bounds: with validated positive capacities the engine always
succeeds, produces one selection per cycle, the total number of kept dates
is at most the sum of the capacities, and with non-empty input every cycle
keeps something. -/
theorem gfsRunDT_bounds (dates : List Datetime) :
    ∀ (policies : List (Gfs.Cycle × Int)), (∀ p ∈ policies, 1 ≤ p.2) →
      ∃ rs, Gfs.gfsRunDT policies dates = some rs
        ∧ rs.length = policies.length
        ∧ (rs.map (fun r => r.2.length)).sum
            ≤ (policies.map (fun p => p.2.toNat)).sum
        ∧ (dates ≠ [] → ∀ r ∈ rs, r.2 ≠ [])
  | [] => by
    intro _
    exact ⟨[], rfl, rfl, le_refl 0, by simp⟩
  | p :: ps => by
    intro hcaps
    obtain ⟨l, hl, hlen, hne⟩ := gfsCycleRun_bounds p.1 p.2.toNat dates
    obtain ⟨rs, hrs, hrslen, hsum, hrne⟩ :=
      gfsRunDT_bounds dates ps (fun q hq => hcaps q (List.mem_cons_of_mem _ hq))
    have hcap1 : 1 ≤ p.2 := hcaps p (List.mem_cons_self _ _)
    refine ⟨(p.1, l) :: rs, ?_, ?_, ?_, ?_⟩
    · simp only [Gfs.gfsRunDT, hl, hrs]
    · simp [hrslen]
    · simp only [List.map_cons, List.sum_cons]
      omega
    · intro hdne r hr
      rcases List.mem_cons.1 hr with rfl | hr
      · exact hne hdne (by omega)
      · exact hrne hdne r hr

/-- Cardinality of a left fold of unions. -/
theorem foldl_union_card_le {α β : Type} [DecidableEq β] :
    ∀ (rs : List (α × List β)) (acc : Finset β),
      (rs.foldl (fun a p => a ∪ p.2.toFinset) acc).card
        ≤ acc.card + (rs.map (fun r => r.2.length)).sum
  | [], acc => by simp
  | r :: rs, acc => by
    simp only [List.foldl_cons, List.map_cons, List.sum_cons]
    have h1 := foldl_union_card_le rs (acc ∪ r.2.toFinset)
    have h2 : (acc ∪ r.2.toFinset).card ≤ acc.card + r.2.length := by
      have := Finset.card_union_le acc r.2.toFinset
      have := List.toFinset_card_le r.2
      omega
    omega

/-- The accumulator is contained in a left fold of unions. -/
theorem subset_foldl_union_acc {α β : Type} [DecidableEq β] :
    ∀ (rs : List (α × List β)) (acc : Finset β),
      acc ⊆ rs.foldl (fun a p => a ∪ p.2.toFinset) acc
  | [], acc => le_refl acc
  | r :: rs, acc => by
    simp only [List.foldl_cons]
    exact subset_trans Finset.subset_union_left
      (subset_foldl_union_acc rs (acc ∪ r.2.toFinset))

/-- Every listed selection is contained in the left fold of unions. -/
theorem subset_foldl_union {α β : Type} [DecidableEq β] :
    ∀ (rs : List (α × List β)) (acc : Finset β) (r : α × List β), r ∈ rs →
      r.2.toFinset ⊆ rs.foldl (fun a p => a ∪ p.2.toFinset) acc
  | [], _, r => by simp
  | q :: rs, acc, r => by
    intro hr
    rcases List.mem_cons.1 hr with rfl | hr
    · simp only [List.foldl_cons]
      exact subset_trans Finset.subset_union_right
        (subset_foldl_union_acc rs (acc ∪ r.2.toFinset))
    · simp only [List.foldl_cons]
      exact subset_foldl_union rs (acc ∪ q.2.toFinset) r hr

/-- C4: for a valid policy (non-empty, positive capacities), a successful
filtering returns at most `sum of capacities` timestamps, and at least one
whenever the input batch is non-empty. -/
theorem gfs_filter_size_bounds (fmt : String)
    (policies : List (Gfs.Cycle × Int)) (strs : List String)
    (F : Finset String) (hne : policies ≠ [])
    (hcaps : ∀ p ∈ policies, 1 ≤ p.2)
    (hok : Gfs.gfsFilterStr fmt policies strs = .ok F) :
    F.card ≤ (policies.map (fun p => p.2.toNat)).sum
      ∧ (strs ≠ [] → F.Nonempty) := by
  unfold Gfs.gfsFilterStr Gfs.gfsStr at hok
  match hpd : Gfs.parseDates fmt strs with
  | .error e => rw [hpd] at hok; cases hok
  | .ok dates =>
    rw [hpd] at hok
    dsimp only at hok
    obtain ⟨rs, hrs, hrslen, hsum, hrne⟩ :=
      gfsRunDT_bounds dates policies hcaps
    rw [hrs] at hok
    dsimp only at hok
    have hFeq : F = (rs.map (fun p => (p.1, p.2.map (strftime fmt)))).foldl
        (fun acc p => acc ∪ p.2.toFinset) ∅ := (Except.ok.inj hok).symm
    have hlensame : ((rs.map (fun p => (p.1, p.2.map (strftime fmt)))).map
        (fun r => r.2.length)).sum = (rs.map (fun r => r.2.length)).sum := by
      simp [List.map_map, Function.comp_def, List.length_map]
    constructor
    · rw [hFeq]
      have := foldl_union_card_le
        (rs.map (fun p => (p.1, p.2.map (strftime fmt)))) ∅
      rw [hlensame] at this
      simp only [Finset.card_empty, Nat.zero_add] at this
      omega
    · intro hsne
      have hdue : dates ≠ [] := by
        intro hc
        have := parseDates_ok_length fmt strs dates hpd
        rw [hc] at this
        simp only [List.length_nil] at this
        exact hsne (List.length_eq_zero.1 this.symm)
      have hrsne : rs ≠ [] := by
        intro hc
        rw [hc] at hrslen
        exact hne (List.length_eq_zero.1 hrslen.symm)
      obtain ⟨r0, rs', hrseq⟩ := List.exists_cons_of_ne_nil hrsne
      have hr0mem : r0 ∈ rs := by
        rw [hrseq]
        exact List.mem_cons_self _ _
      have hr0ne : r0.2 ≠ [] := hrne hdue r0 hr0mem
      obtain ⟨x, xs, hr0eq⟩ := List.exists_cons_of_ne_nil hr0ne
      refine ⟨strftime fmt x, ?_⟩
      rw [hFeq]
      refine subset_foldl_union _ ∅ (r0.1, r0.2.map (strftime fmt)) ?_ ?_
      · exact List.mem_map.2 ⟨r0, hr0mem, rfl⟩
      · rw [hr0eq]
        simp

/-- C4 witness: a single daily slot with one input keeps exactly it. -/
theorem gfs_filter_size_bounds_witness :
    (["2017-05-21T22:00:00"] : List String).toFinset.card
        ≤ (([(Gfs.DAILY, (1 : Int))]).map (fun p => p.2.toNat)).sum
      ∧ ((["2017-05-21T22:00:00"] : List String) ≠ [] →
          (["2017-05-21T22:00:00"] : List String).toFinset.Nonempty) :=
  gfs_filter_size_bounds docFmt [(Gfs.DAILY, 1)] ["2017-05-21T22:00:00"]
    (["2017-05-21T22:00:00"] : List String).toFinset
    (by decide) (by decide) (by decide)

/-- A dict update never empties an association list. -/
theorem dictInsert_ne_nil {α β : Type} [DecidableEq α] :
    ∀ (l : List (α × β)) (k : α) (v : β), Gfs.dictInsert l k v ≠ []
  | [], k, v => by simp [Gfs.dictInsert]
  | p :: t, k, v => by
    simp only [Gfs.dictInsert]
    split <;> simp

/-- The `_GFS.__init__` loop accepts any batch of positive capacities. -/
theorem gfsInitLoop_ok :
    ∀ (cs acc : List (Gfs.Cycle × Int)), (∀ p ∈ cs, 1 ≤ p.2) →
      (acc ≠ [] ∨ cs ≠ []) → ∃ res, Gfs.gfsInitLoop cs acc = .ok res
  | [], acc => by
    intro _ h
    have hacc : acc ≠ [] := by
      rcases h with h | h
      · exact h
      · exact absurd rfl h
    refine ⟨acc, ?_⟩
    simp only [Gfs.gfsInitLoop]
    rw [if_neg]
    simp only [List.isEmpty_iff]
    exact hacc
  | (c, val) :: cs, acc => by
    intro hcaps _
    have hval : 1 ≤ val := hcaps (c, val) (List.mem_cons_self _ _)
    simp only [Gfs.gfsInitLoop]
    rw [if_neg (by omega)]
    exact gfsInitLoop_ok cs (Gfs.dictInsert acc c val)
      (fun q hq => hcaps q (List.mem_cons_of_mem _ hq))
      (Or.inl (dictInsert_ne_nil acc c val))

/-- The `_GFS.__init__` loop rejects the first non-positive capacity, naming the
cycle and the value in the error message. -/
theorem gfsInitLoop_bad :
    ∀ (cs acc : List (Gfs.Cycle × Int)) (c : Gfs.Cycle) (val : Int),
      (c, val) ∈ cs → val < 1 →
      ∃ c' val', (c', val') ∈ cs ∧ val' < 1
        ∧ Gfs.gfsInitLoop cs acc = .error (.valueError
            ("Policies only accept a positive value of cycles, "
              ++ toString val' ++ " given for " ++ Gfs.Cycle.name c'))
  | [], acc, c, val => by simp
  | (c0, v0) :: cs, acc, c, val => by
    intro hmem hval
    by_cases h0 : v0 < 1
    · refine ⟨c0, v0, List.mem_cons_self _ _, h0, ?_⟩
      simp only [Gfs.gfsInitLoop]
      rw [if_pos h0]
    · have hmem2 : (c, val) ∈ cs := by
        rcases List.mem_cons.1 hmem with heq | h
        · have : val = v0 := (Prod.mk.injEq _ _ _ _ ▸ heq).2
          omega
        · exact h
      obtain ⟨c', val', hm, hv, heq⟩ :=
        gfsInitLoop_bad cs (Gfs.dictInsert acc c0 v0) c val hmem2 hval
      refine ⟨c', val', List.mem_cons_of_mem _ hm, hv, ?_⟩
      simp only [Gfs.gfsInitLoop]
      rw [if_neg h0]
      exact heq

/-- The `parse_keyword_cycles` loop accepts any batch of recognised keywords. -/
theorem parseKeywordCycles_ok :
    ∀ (kwargs : List (String × Int)) (acc : List (Gfs.Cycle × Int)),
      (∀ p ∈ kwargs, (Gfs.KEYWORD_CYCLES.find?
        (fun q => q.1 = Gfs.pyToLower p.1)).isSome) →
      ∃ cs, Gfs.parseKeywordCycles kwargs acc = .ok cs
  | [], acc => by
    intro _
    exact ⟨acc, rfl⟩
  | (kw, val) :: rest, acc => by
    intro hknown
    have hsome := hknown (kw, val) (List.mem_cons_self _ _)
    obtain ⟨q, hq⟩ := Option.isSome_iff_exists.1 hsome
    obtain ⟨cs, hcs⟩ := parseKeywordCycles_ok rest (Gfs.dictInsert acc q.2 val)
      (fun p hp => hknown p (List.mem_cons_of_mem _ hp))
    refine ⟨cs, ?_⟩
    simp only [Gfs.parseKeywordCycles, hq, Option.map_some']
    exact hcs

/-- The `parse_keyword_cycles` loop rejects the first unrecognised keyword, naming it
in the error message. -/
theorem parseKeywordCycles_bad :
    ∀ (kwargs : List (String × Int)) (acc : List (Gfs.Cycle × Int))
      (kw : String) (val : Int), (kw, val) ∈ kwargs →
      Gfs.KEYWORD_CYCLES.find? (fun q => q.1 = Gfs.pyToLower kw) = none →
      ∃ kw', (∃ val', (kw', val') ∈ kwargs)
        ∧ Gfs.KEYWORD_CYCLES.find? (fun q => q.1 = Gfs.pyToLower kw') = none
        ∧ Gfs.parseKeywordCycles kwargs acc = .error
            (.notImplementedError ("Policy not available: " ++ kw' ++ "."))
  | [], acc, kw, val => by simp
  | (kw0, v0) :: rest, acc, kw, val => by
    intro hmem hnone
    match hf : Gfs.KEYWORD_CYCLES.find? (fun q => q.1 = Gfs.pyToLower kw0) with
    | none =>
      refine ⟨kw0, ⟨v0, List.mem_cons_self _ _⟩, hf, ?_⟩
      simp only [Gfs.parseKeywordCycles, hf, Option.map_none']
    | some q =>
      have hmem2 : (kw, val) ∈ rest := by
        rcases List.mem_cons.1 hmem with heq | h
        · have hkw : kw = kw0 := (Prod.mk.injEq _ _ _ _ ▸ heq).1
          rw [hkw, hf] at hnone
          cases hnone
        · exact h
      obtain ⟨kw', ⟨val', hm⟩, hn, heq⟩ :=
        parseKeywordCycles_bad rest (Gfs.dictInsert acc q.2 v0) kw val hmem2 hnone
      refine ⟨kw', ⟨val', List.mem_cons_of_mem _ hm⟩, hn, ?_⟩
      simp only [Gfs.parseKeywordCycles, hf, Option.map_some']
      exact heq

/-- The datetime-level engine is total: filtering never raises an error of
its own (only date parsing can fail, upstream of the engine). -/
theorem gfsRunDT_total :
    ∀ (policies : List (Gfs.Cycle × Int)) (dates : List Datetime),
      (Gfs.gfsRunDT policies dates).isSome
  | [], _ => rfl
  | p :: ps, dates => by
    obtain ⟨l, hl, _, _⟩ := gfsCycleRun_bounds p.1 p.2.toNat dates
    have h2 := gfsRunDT_total ps dates
    match h3 : Gfs.gfsRunDT ps dates with
    | none => rw [h3] at h2; cases h2
    | some rs => simp only [Gfs.gfsRunDT, hl, h3]; rfl

/-- C5: policy construction fails exactly for an unrecognised cycle keyword
(`NotImplementedError` naming the keyword), a capacity below 1
(`ValueError` naming the cycle and the value), or an empty cycle mapping
(`RuntimeError`), and succeeds otherwise; filtering itself never fails for
these reasons (the engine is total once a policy exists). -/
theorem gfs_policy_construction_errors :
    (Gfs.gfsInit ([] : List (Gfs.Cycle × Int))
        = .error (.runtimeError "GFS with no policy cycles"))
    ∧ (∀ (cs : List (Gfs.Cycle × Int)) (c : Gfs.Cycle) (val : Int),
        (c, val) ∈ cs → val < 1 →
        ∃ c' val', (c', val') ∈ cs ∧ val' < 1
          ∧ Gfs.gfsInit cs = .error (.valueError
              ("Policies only accept a positive value of cycles, "
                ++ toString val' ++ " given for " ++ Gfs.Cycle.name c')))
    ∧ (∀ cs : List (Gfs.Cycle × Int), cs ≠ [] → (∀ p ∈ cs, 1 ≤ p.2) →
        ∃ res, Gfs.gfsInit cs = .ok res)
    ∧ (∀ (kwargs : List (String × Int)) (kw : String) (val : Int),
        (kw, val) ∈ kwargs →
        Gfs.KEYWORD_CYCLES.find? (fun q => q.1 = Gfs.pyToLower kw) = none →
        ∃ kw', (∃ val', (kw', val') ∈ kwargs)
          ∧ Gfs.KEYWORD_CYCLES.find? (fun q => q.1 = Gfs.pyToLower kw') = none
          ∧ Gfs.parseKeywordCycles kwargs [] = .error
              (.notImplementedError ("Policy not available: " ++ kw' ++ ".")))
    ∧ (∀ kwargs : List (String × Int),
        (∀ p ∈ kwargs, (Gfs.KEYWORD_CYCLES.find?
          (fun q => q.1 = Gfs.pyToLower p.1)).isSome) →
        ∃ cs, Gfs.parseKeywordCycles kwargs [] = .ok cs)
    ∧ (∀ (policies : List (Gfs.Cycle × Int)) (dates : List Datetime),
        (Gfs.gfsRunDT policies dates).isSome) := by
  refine ⟨rfl, ?_, ?_, ?_, ?_, gfsRunDT_total⟩
  · intro cs c val hmem hval
    exact gfsInitLoop_bad cs [] c val hmem hval
  · intro cs hne hcaps
    exact gfsInitLoop_ok cs [] hcaps (Or.inr hne)
  · intro kwargs kw val hmem hnone
    exact parseKeywordCycles_bad kwargs [] kw val hmem hnone
  · intro kwargs hknown
    exact parseKeywordCycles_ok kwargs [] hknown

/-- C5 witness: concrete failing and succeeding constructions. -/
theorem gfs_policy_construction_errors_witness :
    (∃ c' val', (c', val') ∈ [(Gfs.DAILY, (0 : Int))] ∧ val' < 1
      ∧ Gfs.gfsInit [(Gfs.DAILY, (0 : Int))] = .error (.valueError
          ("Policies only accept a positive value of cycles, "
            ++ toString val' ++ " given for " ++ Gfs.Cycle.name c')))
    ∧ (∃ res, Gfs.gfsInit [(Gfs.DAILY, (2 : Int))] = .ok res)
    ∧ (∃ kw', (∃ val', (kw', val') ∈ [("fortnightly", (2 : Int))])
        ∧ Gfs.KEYWORD_CYCLES.find? (fun q => q.1 = Gfs.pyToLower kw') = none
        ∧ Gfs.parseKeywordCycles [("fortnightly", (2 : Int))] [] = .error
            (.notImplementedError ("Policy not available: " ++ kw' ++ ".")))
    ∧ (∃ cs, Gfs.parseKeywordCycles [("daily", (1 : Int))] [] = .ok cs) :=
  ⟨gfs_policy_construction_errors.2.1 _ Gfs.DAILY 0 (by decide) (by decide),
   gfs_policy_construction_errors.2.2.1 _ (by decide) (by decide),
   gfs_policy_construction_errors.2.2.2.1 _ "fortnightly" 2 (by decide)
     (by decide),
   gfs_policy_construction_errors.2.2.2.2.1 _ (by decide)⟩

/-- The weekly bucket key is the calendar year (four digits) and the `%W`
week number (two digits), dash-separated. -/
theorem weekly_key_eq (d : Datetime) :
    Gfs.WEEKLY.key d
      = ⟨pad4 d.year ++ '-' :: pad2 (pyWeek d.year d.month d.day)⟩ := by
  have h : strftimeChars ("%Y-%W".data) d
      = pad4 d.year ++ ('-' :: (pad2 (pyWeek d.year d.month d.day) ++ [])) :=
    rfl
  show PyStr.mk (strftimeChars ("%Y-%W".data) d) = _
  rw [h, List.append_nil]

/-- The `%W` week numbers of calendar dates are below 100 (they are at most
53), so the two-digit field never overflows. -/
theorem pyWeek_lt_100 (y m d : Nat) (hm1 : 1 ≤ m) (hm : m ≤ 12)
    (hd : d ≤ 31) : pyWeek y m d < 100 := by
  have h1 : daysBeforeMonth y m ≤ 335 := by
    interval_cases m <;> simp only [daysBeforeMonth] <;> split <;> omega
  have h2 : dayOfYear y m d ≤ 366 := by
    unfold dayOfYear
    omega
  unfold pyWeek
  omega

theorem digitChar_inj :
    ∀ a, a < 10 → ∀ b, b < 10 → Nat.digitChar a = Nat.digitChar b → a = b := by
  decide

/-- The year-dash-week digit string determines the year and the week. -/
theorem weekly_digits_inj {y1 y2 w1 w2 : Nat} (hy1 : y1 < 10000)
    (hy2 : y2 < 10000) (hw1 : w1 < 100) (hw2 : w2 < 100) :
    pad4 y1 ++ '-' :: pad2 w1 = pad4 y2 ++ '-' :: pad2 w2
      ↔ (y1 = y2 ∧ w1 = w2) := by
  constructor
  · intro h
    rw [pad4, pad4, pad2, pad2, if_pos hy1, if_pos hy2, if_pos hw1,
      if_pos hw2] at h
    simp only [List.cons_append, List.nil_append, List.cons.injEq,
      and_true] at h
    obtain ⟨h1, h2, h3, h4, _, h5, h6⟩ := h
    have e1 := digitChar_inj _ (by omega) _ (by omega) h1
    have e2 := digitChar_inj _ (by omega) _ (by omega) h2
    have e3 := digitChar_inj _ (by omega) _ (by omega) h3
    have e4 := digitChar_inj _ (by omega) _ (by omega) h4
    have e5 := digitChar_inj _ (by omega) _ (by omega) h5
    have e6 := digitChar_inj _ (by omega) _ (by omega) h6
    constructor <;> omega
  · rintro ⟨rfl, rfl⟩
    rfl

/-- C7 counterexample: 2017-01-01 and 2016-12-26 lie in the same ISO week
(2016-W52) but fall in different weekly buckets of the program (`%Y-%W`
gives `2017-00` and `2016-52`), so the weekly bucket key is not the ISO
year-week. -/
theorem weekly_key_not_iso :
    isoYearWeek ⟨2017, 1, 1, 0, 0, 0⟩ = isoYearWeek ⟨2016, 12, 26, 0, 0, 0⟩
    ∧ Gfs.WEEKLY.key ⟨2017, 1, 1, 0, 0, 0⟩
        ≠ Gfs.WEEKLY.key ⟨2016, 12, 26, 0, 0, 0⟩ := by
  decide

/-- C7 (amended): the built-in weekly cycle derives its bucket key from the
timestamp's calendar year together with its `%W` week-of-year number
(Monday-based, days before the year's first Monday counting as week 0), so
two timestamps fall in the same weekly bucket iff they share the calendar
year and that week number. -/
theorem weekly_key_year_week (d1 d2 : Datetime)
    (h1 : 1 ≤ d1.year ∧ d1.year ≤ 9999 ∧ 1 ≤ d1.month ∧ d1.month ≤ 12
      ∧ 1 ≤ d1.day ∧ d1.day ≤ 31)
    (h2 : 1 ≤ d2.year ∧ d2.year ≤ 9999 ∧ 1 ≤ d2.month ∧ d2.month ≤ 12
      ∧ 1 ≤ d2.day ∧ d2.day ≤ 31) :
    Gfs.WEEKLY.key d1 = Gfs.WEEKLY.key d2
      ↔ (d1.year = d2.year
        ∧ pyWeek d1.year d1.month d1.day = pyWeek d2.year d2.month d2.day) := by
  rw [weekly_key_eq, weekly_key_eq, PyStr.mk.injEq]
  exact weekly_digits_inj (by omega) (by omega)
    (pyWeek_lt_100 _ _ _ (by omega) (by omega) (by omega))
    (pyWeek_lt_100 _ _ _ (by omega) (by omega) (by omega))

/-- C7 (amended) witness: 2017-05-21 and 2017-05-20 share year 2017 and
`%W` week 20, and indeed share the weekly bucket. -/
theorem weekly_key_year_week_witness :
    Gfs.WEEKLY.key ⟨2017, 5, 21, 22, 0, 0⟩
        = Gfs.WEEKLY.key ⟨2017, 5, 20, 20, 0, 0⟩
      ↔ ((2017 : Nat) = 2017 ∧ pyWeek 2017 5 21 = pyWeek 2017 5 20) :=
  weekly_key_year_week ⟨2017, 5, 21, 22, 0, 0⟩ ⟨2017, 5, 20, 20, 0, 0⟩
    (by decide) (by decide)
